import Mathlib

/-!
Verification of the account-storage, schema-sanitization, signature-cache and
thinking-filter behaviour of the opencode-antigravity-auth plugin.

The account-storage functions (`deduplicateAccountsByEmail`, `migrateV1ToV2`,
`loadAccounts`) are embedded from `src/hooks/auto-update-checker/constants.ts`.
JSON values parsed from the storage file are modelled by the `Json` inductive
(numbers restricted to integers; the storage file holds millisecond
timestamps, versions and indices, all integral in practice).
-/

namespace Antigravity

/-- A parsed JSON value (`JSON.parse` result).  Objects are ordered key/value
lists, mirroring JS object property order; numbers are modelled as integers. -/
inductive Json where
  | null
  | bool (b : Bool)
  | num (n : Int)
  | str (s : String)
  | arr (elems : List Json)
  | obj (fields : List (String × Json))

/-- First-match lookup in an object's field list (JS property read: the parser
keeps the last duplicate key, but well-formed files have unique keys). -/
def jLookup : List (String × Json) → String → Option Json
  | [], _ => none
  | (k', v) :: rest, k => if k' = k then some v else jLookup rest k

/-- Property read on an arbitrary value: non-objects have no (relevant)
properties, so the read yields `undefined`, modelled as `none`. -/
def jGetKey (j : Json) (k : String) : Option Json :=
  match j with
  | .obj fields => jLookup fields k
  | _ => none

/-- JS truthiness of a JSON value. -/
def jsTruthy : Json → Bool
  | .null => false
  | .bool b => b
  | .num n => n != 0
  | .str s => s != ""
  | .arr _ => true
  | .obj _ => true

/-- JS truthiness of a possibly-`undefined` property read. -/
def jsTruthyO : Option Json → Bool
  | none => false
  | some j => jsTruthy j

/-- JS `ToNumber` on a JSON value, `none` standing for `NaN`.  Strings are
parsed as decimal integers; arrays and objects (which JS coerces through
string conversion) are treated as `NaN` — such values never occur in the
numeric fields of a well-formed storage file. -/
def jsToNumber : Json → Option Int
  | .null => some 0
  | .bool b => some (if b then 1 else 0)
  | .num n => some n
  | .str s => if s = "" then some 0 else s.toInt?
  | .arr _ => none
  | .obj _ => none

/-- `lastSwitchReason` field values ("rate-limit" | "initial" | "rotation"). -/
inductive SwitchReason where
  | rateLimit
  | initial
  | rotation
deriving DecidableEq, Repr

/-- `RateLimitState` from constants.ts: independent per-model-family reset
times (ms timestamps). -/
structure RateLimitState where
  claude : Option Int := none
  gemini : Option Int := none
deriving DecidableEq, Repr

/-- `AccountMetadata` (storage version 2) from constants.ts.  Timestamps are
integers (JS ms timestamps). -/
structure AccountMetadata where
  email : Option String := none
  refreshToken : String := ""
  projectId : Option String := none
  managedProjectId : Option String := none
  addedAt : Int := 0
  lastUsed : Int := 0
  lastSwitchReason : Option SwitchReason := none
  rateLimitResetTimes : Option RateLimitState := none
deriving DecidableEq, Repr

/-- `AccountMetadataV1` (storage version 1) from constants.ts. -/
structure AccountMetadataV1 where
  email : Option String := none
  refreshToken : String := ""
  projectId : Option String := none
  managedProjectId : Option String := none
  addedAt : Int := 0
  lastUsed : Int := 0
  isRateLimited : Option Bool := none
  rateLimitResetTime : Option Int := none
  lastSwitchReason : Option SwitchReason := none
deriving DecidableEq, Repr

/-- `AccountStorage` (version 2).  The `version` field is the literal 2 in the
TS type; it is carried explicitly so load results can state it. -/
structure AccountStorage where
  version : Nat := 2
  accounts : List AccountMetadata := []
  activeIndex : Int := 0
deriving DecidableEq, Repr

/-- `AccountStorageV1`. -/
structure AccountStorageV1 where
  accounts : List AccountMetadataV1 := []
  activeIndex : Int := 0
deriving DecidableEq, Repr

/-! ## deduplicateAccountsByEmail (constants.ts lines 128-188) -/

/-- The identity the code deduplicates on: `if (!acc.email)` treats a missing
or empty-string email (both falsy in JS) as "no email", and such accounts are
always kept. -/
def emailKey (a : AccountMetadata) : Option String :=
  match a.email with
  | none => none
  | some e => if e = "" then none else some e

/-- JS `Map.get` over the association-list model of `emailToNewestIndex`. -/
def mapGet (m : List (String × Nat)) (k : String) : Option Nat :=
  match m with
  | [] => none
  | (k', v) :: rest => if k' = k then some v else mapGet rest k

/-- JS `Map.set`: overwrite in place if the key exists, else append. -/
def mapSet (m : List (String × Nat)) (k : String) (v : Nat) : List (String × Nat) :=
  match m with
  | [] => [(k, v)]
  | (k', v') :: rest => if k' = k then (k, v) :: rest else (k', v') :: mapSet rest k v

/-- State of the first pass: `emailToNewestIndex` map and `indicesToKeep` set
(membership is all that is ever used of the set). -/
structure Pass1State where
  emailToNewestIndex : List (String × Nat) := []
  indicesToKeep : List Nat := []

/-- `acc` is strictly newer than `existing`: "Prefer higher lastUsed, then
higher addedAt" (the `|| 0` guards in the source are identities on the typed
integer fields). -/
def isNewer (acc existing : AccountMetadata) : Bool :=
  acc.lastUsed > existing.lastUsed ||
    (acc.lastUsed == existing.lastUsed && acc.addedAt > existing.addedAt)

/-- One iteration of the first pass of `deduplicateAccountsByEmail` for the
indexed account `(i, acc)`.  The source's `if (!acc) continue` guard never
fires for a list of records and is omitted; the `if (!existing)` guard is kept
as the `none` branch of the `accounts.get?` match. -/
def pass1Step (accounts : List AccountMetadata) (st : Pass1State)
    (p : Nat × AccountMetadata) : Pass1State :=
  let i := p.1
  let acc := p.2
  match emailKey acc with
  | none => { st with indicesToKeep := st.indicesToKeep ++ [i] }
  | some e =>
    match mapGet st.emailToNewestIndex e with
    | none => { st with emailToNewestIndex := mapSet st.emailToNewestIndex e i }
    | some existingIndex =>
      match accounts.get? existingIndex with
      | none => { st with emailToNewestIndex := mapSet st.emailToNewestIndex e i }
      | some existing =>
        if isNewer acc existing then
          { st with emailToNewestIndex := mapSet st.emailToNewestIndex e i }
        else st

/-- The first pass of `deduplicateAccountsByEmail` over the indexed list. -/
def dedupState (accounts : List AccountMetadata) : Pass1State :=
  accounts.enum.foldl (pass1Step accounts) {}

/-- The keep set: the explicitly kept (no-email) indices plus the map's
values ("Add all the newest email-based indices to the keep set"). -/
def dedupKeep (accounts : List AccountMetadata) : List Nat :=
  (dedupState accounts).indicesToKeep ++ (dedupState accounts).emailToNewestIndex.map Prod.snd

/-- `deduplicateAccountsByEmail` from constants.ts: first pass finds the
newest index per email, the keep set is the no-email indices plus the map's
values, and the second pass rebuilds the list preserving original order. -/
def deduplicateAccountsByEmail (accounts : List AccountMetadata) : List AccountMetadata :=
  (accounts.enum.filter (fun p => p.1 ∈ dedupKeep accounts)).map Prod.snd

/-! ## migrateV1ToV2 (constants.ts lines 190-212)

Two readings of the same source lines: `migrateAccountV1` reads a record at
the declared interface types (used by the typed claims), and `migrateAccJson`
reads the raw parsed object exactly as the untyped JS does (used inside the
`loadAccounts` model, since the code migrates before validating). -/

/-- Migration of one typed v1 record.  `now` is `Date.now()` (a non-negative
ms timestamp).  The guard mirrors
`acc.isRateLimited && acc.rateLimitResetTime && acc.rateLimitResetTime > Date.now()`:
JS truthiness of the optional boolean is `= some true`, truthiness of the
optional number is presence with a non-zero value. -/
def migrateAccountV1 (now : Nat) (acc : AccountMetadataV1) : AccountMetadata :=
  let resetBoth : Option RateLimitState :=
    if acc.isRateLimited = some true then
      match acc.rateLimitResetTime with
      | some t => if t ≠ 0 ∧ t > (now : Int) then some { claude := some t, gemini := some t } else none
      | none => none
    else none
  { email := acc.email
    refreshToken := acc.refreshToken
    projectId := acc.projectId
    managedProjectId := acc.managedProjectId
    addedAt := acc.addedAt
    lastUsed := acc.lastUsed
    lastSwitchReason := acc.lastSwitchReason
    rateLimitResetTimes := resetBoth }

/-- `migrateV1ToV2` on a typed v1 storage. -/
def migrateV1ToV2 (now : Nat) (v1 : AccountStorageV1) : AccountStorage :=
  { version := 2
    accounts := v1.accounts.map (migrateAccountV1 now)
    activeIndex := v1.activeIndex }

/-- Copy a property into the migrated raw object when present (a JS property
set to `undefined` is observationally absent for every later read). -/
def copyField (acc : Json) (k : String) : List (String × Json) :=
  match jGetKey acc k with
  | some v => [(k, v)]
  | none => []

/-- `rateLimitResetTime > Date.now()` on the raw value (JS `>` after numeric
coercion; `NaN` comparisons are false). -/
def rawTimeInFuture (rt : Json) (now : Nat) : Bool :=
  match jsToNumber rt with
  | some x => x > (now : Int)
  | none => false

/-- Migration of one raw v1 account object.  Returns `none` when the element
is `null`: reading `acc.isRateLimited` then throws, and the exception is
caught by `loadAccounts`' outer handler. -/
def migrateAccJson (now : Nat) (acc : Json) : Option Json :=
  match acc with
  | .null => none
  | _ =>
    let rateFields : List (String × Json) :=
      match jGetKey acc "rateLimitResetTime" with
      | some rt =>
        if jsTruthyO (jGetKey acc "isRateLimited") && jsTruthy rt && rawTimeInFuture rt now then
          [("rateLimitResetTimes", .obj [("claude", rt), ("gemini", rt)])]
        else []
      | none => []
    some (.obj (copyField acc "email" ++ copyField acc "refreshToken" ++
      copyField acc "projectId" ++ copyField acc "managedProjectId" ++
      copyField acc "addedAt" ++ copyField acc "lastUsed" ++
      copyField acc "lastSwitchReason" ++ rateFields))

/-- Migrate every raw account; `none` if any element throws. -/
def migrateAllJson (now : Nat) : List Json → Option (List Json)
  | [] => some []
  | acc :: rest =>
    match migrateAccJson now acc with
    | none => none
    | some m =>
      match migrateAllJson now rest with
      | none => none
      | some ms => some (m :: ms)

/-! ## loadAccounts (constants.ts lines 214-275) -/

/-- The validation filter of `loadAccounts`
(`!!a && typeof a === "object" && typeof a.refreshToken === "string"`),
fused with the reading of a raw account at the `AccountMetadata` field types.
Arrays pass the `typeof` test but carry none of these string keys.  Fields of
unexpected type are read as absent/zero, matching how the typed code consumes
them; such values do not occur in files written by `saveAccounts`. -/
def decodeAccount (j : Json) : Option AccountMetadata :=
  match j with
  | .obj fs =>
    match jLookup fs "refreshToken" with
    | some (.str r) =>
      some { email := (match jLookup fs "email" with | some (.str s) => some s | _ => none)
             refreshToken := r
             projectId := (match jLookup fs "projectId" with | some (.str s) => some s | _ => none)
             managedProjectId := (match jLookup fs "managedProjectId" with | some (.str s) => some s | _ => none)
             addedAt := (match jLookup fs "addedAt" with | some (.num n) => n | _ => 0)
             lastUsed := (match jLookup fs "lastUsed" with | some (.num n) => n | _ => 0)
             lastSwitchReason :=
               (match jLookup fs "lastSwitchReason" with
                | some (.str "rate-limit") => some .rateLimit
                | some (.str "initial") => some .initial
                | some (.str "rotation") => some .rotation
                | _ => none)
             rateLimitResetTimes :=
               (match jLookup fs "rateLimitResetTimes" with
                | some (.obj rl) =>
                  some { claude := (match jLookup rl "claude" with | some (.num n) => some n | _ => none)
                         gemini := (match jLookup rl "gemini" with | some (.num n) => some n | _ => none) }
                | _ => none) }
    | _ => none
  | _ => none

/-- The raw stored active index
(`typeof storage.activeIndex === "number" && Number.isFinite(...)`, else 0;
parsed JSON numbers are always finite). -/
def rawActiveIndex : Option Json → Int
  | some (.num n) => n
  | _ => 0

/-- Validation, de-duplication and active-index clamping — the tail of
`loadAccounts` (lines 245-266) applied to the account array of the (possibly
migrated) storage. -/
def finishLoad (accs : List Json) (aiRaw : Option Json) : AccountStorage :=
  let deduplicated := deduplicateAccountsByEmail (accs.filterMap decodeAccount)
  let ai0 : Int := rawActiveIndex aiRaw
  let ai1 : Int :=
    if deduplicated.length > 0 then max (min ai0 ((deduplicated.length : Int) - 1)) 0
    else 0
  { version := 2, accounts := deduplicated, activeIndex := ai1 }

/-- The three file states `loadAccounts` can observe: a missing file (ENOENT),
content `JSON.parse` rejects, or a parsed value. -/
inductive LoadInput where
  | missing
  | parseError
  | parsed (data : Json)

/-- Result of a load: the returned storage (or `null`) plus whether
`console.error` fired (the ENOENT path returns silently; the warn-level paths
are not error logs). -/
structure LoadResult where
  storage : Option AccountStorage
  errorLogged : Bool
deriving DecidableEq

/-- `loadAccounts`.  `now` is `Date.now()` at migration time.  Reading
`data.accounts` on a parsed `null` throws (caught, logged, `null` returned);
any other non-object yields `undefined`, failing the `Array.isArray` check
with a warning.  The v1 branch's `saveAccounts` call only warns on failure
and does not affect the returned value, so it is not modelled. -/
def loadAccounts (now : Nat) : LoadInput → LoadResult
  | .missing => { storage := none, errorLogged := false }
  | .parseError => { storage := none, errorLogged := true }
  | .parsed data =>
    match data with
    | .null => { storage := none, errorLogged := true }
    | _ =>
      match jGetKey data "accounts" with
      | some (.arr accs) =>
        match jGetKey data "version" with
        | some (.num n) =>
          if n = 1 then
            match migrateAllJson now accs with
            | none => { storage := none, errorLogged := true }
            | some migrated =>
              { storage := some (finishLoad migrated (jGetKey data "activeIndex"))
                errorLogged := false }
          else if n = 2 then
            { storage := some (finishLoad accs (jGetKey data "activeIndex"))
              errorLogged := false }
          else { storage := none, errorLogged := false }
        | _ => { storage := none, errorLogged := false }
      | _ => { storage := none, errorLogged := false }

/-! ## Signature cache

Modelled from the spec: the `SignatureStore` implementation (`cacheSignature` /
`getCachedSignature` in `src/plugin/cache.ts`) is not part of the sources;
only its interface appears in constants.ts.  Spec (§4.5): a bounded key-value
store whose scope key includes the session id; entries expire 1 hour after
insertion; at most 100 entries per session, inserting beyond the cap evicts
the oldest entry for that session; inserting under an existing key overwrites
it and refreshes its expiry; no expired entry is ever returned by `get`. -/

/-- One cache entry.  The part of the scope key beyond the session id
(model + project + conversation) is collapsed into `subKey`; only
session-scoping is load-bearing for the stated policies. -/
structure CacheEntry where
  sessionId : String
  subKey : String
  text : String
  signature : String
  insertedAt : Nat
deriving DecidableEq, Repr

/-- Entries expire 1 hour (in ms) after insertion. -/
def cacheTTL : Nat := 3600000

/-- The per-session capacity. -/
def cacheCap : Nat := 100

/-- The cache, ordered by insertion time (oldest first; an overwrite removes
the old entry and appends, refreshing its position and expiry). -/
def SignatureCache := List CacheEntry

/-- Remove the oldest (first-inserted) entry of session `s`. -/
def evictOldest (s : String) : List CacheEntry → List CacheEntry
  | [] => []
  | x :: rest => if x.sessionId = s then rest else x :: evictOldest s rest

/-- `set`: overwrite any entry with the same full key, append the new entry,
then evict the oldest entry of the session if the cap is exceeded. -/
def cacheSet (c : List CacheEntry) (e : CacheEntry) : List CacheEntry :=
  let c1 := c.filter (fun x => ¬(x.sessionId = e.sessionId ∧ x.subKey = e.subKey))
  let c2 := c1 ++ [e]
  if cacheCap < (c2.filter (fun x => x.sessionId = e.sessionId)).length then
    evictOldest e.sessionId c2
  else c2

/-- The full-key match used by `get`. -/
def cacheKeyMatch (s k : String) (x : CacheEntry) : Bool :=
  x.sessionId = s ∧ x.subKey = k

/-- `get`: look up by full key; an entry past its expiry is never returned. -/
def cacheGet (now : Nat) (s k : String) (c : List CacheEntry) : Option CacheEntry :=
  match c.find? (cacheKeyMatch s k) with
  | some e => if now < e.insertedAt + cacheTTL then some e else none
  | none => none

/-! ## Thinking-lifecycle filter: trailing thinking blocks

Modelled from the spec: `removeTrailingThinkingBlocks` and
`hasValidSignature` live in `src/plugin/request-helpers.ts`, which is not
part of the sources.  Spec (§4.2 and docs): a trailing thinking block of an
assistant-authored turn is removed unless it carries a signature judged
valid, where a signature is valid exactly when it is a string of length at
least 50; non-thinking blocks are never disturbed. -/

/-- A content block of a conversation turn. -/
inductive Block where
  | text (s : String)
  | toolCall (name : String) (args : String)
  | toolResult (name : String) (payload : String)
  | thinking (content : String) (signature : Option String)
deriving DecidableEq, Repr

/-- Message author roles. -/
inductive Role where
  | user
  | assistant
  | tool
deriving DecidableEq, Repr

/-- A conversation turn. -/
structure Turn where
  role : Role
  blocks : List Block
deriving DecidableEq, Repr

def Block.isThinking : Block → Bool
  | .thinking _ _ => true
  | _ => false

/-- `hasValidSignature`: the block carries a signature string of length ≥ 50. -/
def hasValidSignature : Block → Bool
  | .thinking _ (some sig) => 50 ≤ sig.length
  | _ => false

/-- `removeTrailingThinkingBlocks`: strip trailing thinking blocks that lack
a valid signature from the end of a block list. -/
def removeTrailingThinkingBlocks (blocks : List Block) : List Block :=
  ((blocks.reverse.dropWhile (fun b => b.isThinking && !hasValidSignature b))).reverse

/-- The filter applies the trailing-thinking removal to assistant-authored
turns only. -/
def filterTurnTrailing (t : Turn) : Turn :=
  if t.role = .assistant then { t with blocks := removeTrailingThinkingBlocks t.blocks }
  else t

/-! ## Schema sanitizer

Modelled from the spec: `sanitizeSchema` and the tool-name rewriting live in
`src/plugin/request.ts`, which is not part of the sources.  Spec (§4.1):
keys outside the allowlist `{type, properties, required, description, enum,
items, additionalProperties}` are dropped at every nesting level; `const: V`
becomes `enum: [V]` before filtering; an object-typed schema with empty or
absent `properties` gains a placeholder `reason` property and
`required: ["reason"]`; an `items` value that sanitizes to an empty object
becomes `{type: "string"}`; non-object inputs degrade to the placeholder
form.  The sanitized object is emitted with its keys in one fixed order
(the spec fixes the key set, not an order). -/

theorem sizeOf_lt_of_jLookup {fields : List (String × Json)} {k : String} {v : Json}
    (h : jLookup fields k = some v) : sizeOf v < sizeOf fields := by
  induction fields with
  | nil => simp [jLookup] at h
  | cons p rest ih =>
    obtain ⟨k', v'⟩ := p
    simp only [jLookup] at h
    by_cases hk : k' = k
    · simp [hk] at h
      subst h
      simp
      omega
    · simp [hk] at h
      have := ih h
      simp
      omega

theorem sizeOf_lt_of_mem_fields {fields : List (String × Json)} {p : String × Json}
    (h : p ∈ fields) : sizeOf p.2 < sizeOf fields := by
  induction fields with
  | nil => simp at h
  | cons q rest ih =>
    rcases List.mem_cons.mp h with h1 | h2
    · subst h1
      obtain ⟨a, b⟩ := p
      simp
      omega
    · have := ih h2
      simp
      omega

/-- The placeholder `reason` property injected into empty object schemas. -/
def placeholderReasonSchema : Json :=
  .obj [("type", .str "string"),
        ("description", .str "Brief explanation of why you are calling this tool")]

def placeholderProps : List (String × Json) := [("reason", placeholderReasonSchema)]

/-- The schema an unrecognized (non-object) input degrades to. -/
def placeholderSchema : Json :=
  .obj [("type", .str "object"), ("properties", .obj placeholderProps),
        ("required", .arr [.str "reason"])]

/-- Emit an optional field. -/
def optField (k : String) : Option Json → List (String × Json)
  | some v => [(k, v)]
  | none => []

def propsField : Option (List (String × Json)) → List (String × Json)
  | some ps => [("properties", .obj ps)]
  | none => []

/-- An `items` value that sanitized to an empty object becomes
`{type: "string"}`. -/
def itemsFix (s : Json) : Json :=
  match s with
  | .obj [] => .obj [("type", .str "string")]
  | s => s

/-- The sanitized object's field list, in the model's fixed key order. -/
def assembleFields (typ enumV : Option Json) (props : Option (List (String × Json)))
    (items req desc addp : Option Json) : List (String × Json) :=
  optField "type" typ ++ optField "enum" enumV ++ propsField props ++
    optField "items" items ++ optField "required" req ++
    optField "description" desc ++ optField "additionalProperties" addp

/-- Whether the placeholder property must be injected: the schema is
object-typed with empty or absent properties. -/
def injectPlaceholder (typ : Option Json) (props : Option (List (String × Json))) : Bool :=
  match typ, props with
  | some (.str "object"), none => true
  | some (.str "object"), some [] => true
  | _, _ => false

/-- Reassemble the allowlisted fields, injecting the placeholder property and
`required: ["reason"]` when the schema is object-typed with empty or absent
properties. -/
def assembleSchema (typ enumV : Option Json) (props : Option (List (String × Json)))
    (items req desc addp : Option Json) : Json :=
  let inject := injectPlaceholder typ props
  .obj (assembleFields typ enumV
    (if inject then some placeholderProps else props) items
    (if inject then some (.arr [.str "reason"]) else req) desc addp)

/-- The sanitizer: allowlist filtering with `const → enum` conversion,
recursing into `properties` values and `items`. -/
def sanitizeSchema (j : Json) : Json :=
  match j with
  | .obj fields =>
    let enumOut : Option Json :=
      match jLookup fields "const" with
      | some v => some (.arr [v])
      | none => jLookup fields "enum"
    let propsOut : Option (List (String × Json)) :=
      match h : jLookup fields "properties" with
      | some (.obj ps) => some (ps.attach.map (fun q => (q.1.1, sanitizeSchema q.1.2)))
      | _ => none
    let itemsOut : Option Json :=
      match h2 : jLookup fields "items" with
      | some it => some (itemsFix (sanitizeSchema it))
      | none => none
    assembleSchema (jLookup fields "type") enumOut propsOut itemsOut
      (jLookup fields "required") (jLookup fields "description")
      (jLookup fields "additionalProperties")
  | _ => placeholderSchema
termination_by sizeOf j
decreasing_by
  · have h1 := sizeOf_lt_of_jLookup h
    have hm := sizeOf_lt_of_mem_fields q.2
    simp at h1 ⊢
    omega
  · have h1 := sizeOf_lt_of_jLookup h2
    simp
    omega

/-- One character of the tool-name rewrite: anything outside `[a-zA-Z0-9_-]`
becomes `_`. -/
def sanChar (c : Char) : Char :=
  if c.isAlphanum || c == '_' || c == '-' then c else '_'

/-- Tool/function name rewriting: characters outside `[a-zA-Z0-9_-]` become
`_`; the result is truncated to 64 characters. -/
def sanitizeToolName (name : String) : String :=
  String.mk ((name.toList.map sanChar).take 64)

/-- `const` does not occur as a key at any schema position (the positions the
sanitizer's recursion reaches: the schema itself, its `properties` values,
and its `items`). -/
def schemaConstFree (j : Json) : Bool :=
  match j with
  | .obj fields =>
    (match jLookup fields "const" with | some _ => false | none => true) &&
    (match h : jLookup fields "properties" with
     | some (.obj ps) => ps.attach.all (fun q => schemaConstFree q.1.2)
     | _ => true) &&
    (match h2 : jLookup fields "items" with
     | some it => schemaConstFree it
     | none => true)
  | _ => true
termination_by sizeOf j
decreasing_by
  · have h1 := sizeOf_lt_of_jLookup h
    have hm := sizeOf_lt_of_mem_fields q.2
    simp at h1 ⊢
    omega
  · have h1 := sizeOf_lt_of_jLookup h2
    simp
    omega

/-- `k` occurs as a key somewhere in the value tree. -/
def deepHasKey (k : String) (j : Json) : Bool :=
  match j with
  | .obj fields => fields.attach.any (fun q => q.1.1 == k || deepHasKey k q.1.2)
  | .arr xs => xs.attach.any (fun q => deepHasKey k q.1)
  | _ => false
termination_by sizeOf j
decreasing_by
  · have hm := sizeOf_lt_of_mem_fields q.2
    simp
    omega
  · have := List.sizeOf_lt_of_mem q.2
    simp
    omega

/-! ## Theorems: deduplicateAccountsByEmail -/

/-- `b` is at most as new as `a` under the code's order: lexicographic on
`(lastUsed, addedAt)`. -/
def lexLE (b a : AccountMetadata) : Prop :=
  b.lastUsed < a.lastUsed ∨ (b.lastUsed = a.lastUsed ∧ b.addedAt ≤ a.addedAt)

/-- `b` is strictly newer than `a` (the claim's "newer (by lastUsed, then
addedAt)"). -/
def lexLT (a b : AccountMetadata) : Prop :=
  a.lastUsed < b.lastUsed ∨ (a.lastUsed = b.lastUsed ∧ a.addedAt < b.addedAt)

instance (b a : AccountMetadata) : Decidable (lexLE b a) := by
  unfold lexLE; infer_instance

instance (a b : AccountMetadata) : Decidable (lexLT a b) := by
  unfold lexLT; infer_instance

theorem lexLE_refl (a : AccountMetadata) : lexLE a a :=
  Or.inr ⟨rfl, le_refl _⟩

theorem lexLE_trans {a b c : AccountMetadata} (h1 : lexLE a b) (h2 : lexLE b c) :
    lexLE a c := by
  unfold lexLE at *
  rcases h1 with h1 | ⟨h1, h1'⟩ <;> rcases h2 with h2 | ⟨h2, h2'⟩
  · exact Or.inl (h1.trans h2)
  · exact Or.inl (h2 ▸ h1)
  · exact Or.inl (h1 ▸ h2)
  · exact Or.inr ⟨h1.trans h2, h1'.trans h2'⟩

theorem lexLE_of_isNewer_false {x y : AccountMetadata} (h : isNewer x y = false) :
    lexLE x y := by
  unfold isNewer at h
  unfold lexLE
  simp only [Bool.or_eq_false_iff, Bool.and_eq_false_iff, decide_eq_false_iff_not,
    not_lt, beq_iff_eq, beq_eq_false_iff_ne, ne_eq] at h
  obtain ⟨h1, h2⟩ := h
  rcases lt_or_eq_of_le h1 with h3 | h3
  · exact Or.inl h3
  · rcases h2 with h2 | h2
    · exact absurd h3 h2
    · exact Or.inr ⟨h3, h2⟩

theorem lexLE_of_isNewer_true {x y : AccountMetadata} (h : isNewer x y = true) :
    lexLE y x := by
  unfold isNewer at h
  unfold lexLE
  simp only [Bool.or_eq_true, Bool.and_eq_true, decide_eq_true_eq, beq_iff_eq] at h
  rcases h with h | ⟨h, h'⟩
  · exact Or.inl h
  · exact Or.inr ⟨h.symm, le_of_lt h'⟩

theorem mapGet_mapSet_self (m : List (String × Nat)) (k : String) (v : Nat) :
    mapGet (mapSet m k v) k = some v := by
  induction m with
  | nil => simp [mapSet, mapGet]
  | cons p rest ih =>
    obtain ⟨k', v'⟩ := p
    by_cases h : k' = k <;> simp [mapSet, mapGet, h, ih]

theorem mapGet_mapSet_ne (m : List (String × Nat)) {k k' : String} (v : Nat)
    (h : k' ≠ k) : mapGet (mapSet m k v) k' = mapGet m k' := by
  have h' : ¬(k = k') := fun hh => h hh.symm
  induction m with
  | nil => simp [mapSet, mapGet, h']
  | cons p rest ih =>
    obtain ⟨k0, v0⟩ := p
    by_cases h0 : k0 = k
    · subst h0
      simp [mapSet, mapGet, h']
    · simp only [mapSet, mapGet, h0, if_neg h0]
      by_cases h1 : k0 = k' <;> simp [h1, ih]

theorem mapGet_none_iff (m : List (String × Nat)) (k : String) :
    mapGet m k = none ↔ k ∉ m.map Prod.fst := by
  induction m with
  | nil => simp [mapGet]
  | cons p rest ih =>
    obtain ⟨k', v⟩ := p
    by_cases h : k' = k
    · subst h
      simp [mapGet]
    · have h' : ¬(k = k') := fun hh => h hh.symm
      simp [mapGet, h, h', ih]

theorem mapSet_fst_of_mem (m : List (String × Nat)) {k : String} (v : Nat)
    (h : k ∈ m.map Prod.fst) : (mapSet m k v).map Prod.fst = m.map Prod.fst := by
  induction m with
  | nil => simp at h
  | cons p rest ih =>
    obtain ⟨k', v'⟩ := p
    by_cases h0 : k' = k
    · subst h0
      simp [mapSet]
    · simp only [List.map_cons, List.mem_cons] at h
      rcases h with h | h
    
      · exact absurd h.symm h0
      · simp [mapSet, h0, ih h]

theorem mapSet_fst_of_not_mem (m : List (String × Nat)) {k : String} (v : Nat)
    (h : k ∉ m.map Prod.fst) : (mapSet m k v).map Prod.fst = m.map Prod.fst ++ [k] := by
  induction m with
  | nil => simp [mapSet]
  | cons p rest ih =>
    obtain ⟨k', v'⟩ := p
    simp only [List.map_cons, List.mem_cons] at h
    push_neg at h
    have h1 : ¬(k' = k) := fun hh => h.1 hh.symm
    simp [mapSet, h1, ih h.2]

theorem mapGet_mem {m : List (String × Nat)} {k : String} {v : Nat}
    (h : mapGet m k = some v) : (k, v) ∈ m := by
  induction m with
  | nil => simp [mapGet] at h
  | cons p rest ih =>
    obtain ⟨k', v'⟩ := p
    by_cases h0 : k' = k
    · subst h0
      simp [mapGet] at h
      simp [h]
    · simp [mapGet, h0] at h
      exact List.mem_cons_of_mem _ (ih h)

theorem mem_mapGet_of_nodup {m : List (String × Nat)} {k : String} {v : Nat}
    (hnd : (m.map Prod.fst).Nodup) (h : (k, v) ∈ m) : mapGet m k = some v := by
  induction m with
  | nil => simp at h
  | cons p rest ih =>
    obtain ⟨k', v'⟩ := p
    simp only [List.map_cons, List.nodup_cons] at hnd
    rcases List.mem_cons.mp h with h0 | h0
    · obtain ⟨h1, h2⟩ := Prod.mk.inj h0
      simp [mapGet, h1.symm, h2]
    · have hk : k' ≠ k := by
        intro he
        subst he
        exact hnd.1 (List.mem_map.mpr ⟨(k', v), h0, rfl⟩)
      simp [mapGet, hk, ih hnd.2 h0]

theorem mem_enum_iff_get? {l : List AccountMetadata} {i : Nat} {a : AccountMetadata} :
    (i, a) ∈ l.enum ↔ l.get? i = some a := by
  rw [List.mk_mem_enum_iff_getElem?, List.get?_eq_getElem?]

theorem enum_nodup (l : List AccountMetadata) : l.enum.Nodup := by
  have h1 : l.enum.map Prod.fst = List.range l.length := List.enum_map_fst l
  have h2 : (l.enum.map Prod.fst).Nodup := h1 ▸ List.nodup_range _
  exact h2.of_map

/-- The invariant maintained by the first pass after processing the indexed
pairs `P`: the keep list holds exactly the processed no-email indices; the
map's keys are distinct; every map entry points at a processed account of
that email that is at least as new as every processed account of that email;
and every processed email has a map entry. -/
structure Pass1Inv (accounts : List AccountMetadata)
    (P : List (Nat × AccountMetadata)) (st : Pass1State) : Prop where
  sound : ∀ p ∈ P, accounts.get? p.1 = some p.2
  keepIff : ∀ i, i ∈ st.indicesToKeep ↔ ∃ a, (i, a) ∈ P ∧ emailKey a = none
  keysNodup : (st.emailToNewestIndex.map Prod.fst).Nodup
  winner : ∀ e w, mapGet st.emailToNewestIndex e = some w →
    ∃ aw, (w, aw) ∈ P ∧ emailKey aw = some e ∧
      ∀ q ∈ P, emailKey q.2 = some e → lexLE q.2 aw
  total : ∀ e, ∀ q ∈ P, emailKey q.2 = some e →
    ∃ w, mapGet st.emailToNewestIndex e = some w

theorem pass1Step_inv {accounts : List AccountMetadata}
    {P : List (Nat × AccountMetadata)} {st : Pass1State} {p : Nat × AccountMetadata}
    (hp : accounts.get? p.1 = some p.2) (hinv : Pass1Inv accounts P st) :
    Pass1Inv accounts (P ++ [p]) (pass1Step accounts st p) := by
  obtain ⟨i, acc⟩ := p
  match hek : emailKey acc with
  | none =>
    refine ⟨?_, ?_, ?_, ?_, ?_⟩
    · intro q hq
      rcases List.mem_append.mp hq with hq | hq
      · exact hinv.sound q hq
      · simp at hq
        subst hq
        exact hp
    · intro j
      simp only [pass1Step, hek]
      constructor
      · intro hj
        rcases List.mem_append.mp hj with hj | hj
        · obtain ⟨a, ha, hae⟩ := (hinv.keepIff j).mp hj
          exact ⟨a, List.mem_append_left _ ha, hae⟩
        · simp at hj
          subst hj
          exact ⟨acc, List.mem_append_right _ (by simp), hek⟩
      · rintro ⟨a, ha, hae⟩
        rcases List.mem_append.mp ha with ha | ha
        · exact List.mem_append_left _ ((hinv.keepIff j).mpr ⟨a, ha, hae⟩)
        · simp at ha
          obtain ⟨hj, ha⟩ := ha
          subst hj
          exact List.mem_append_right _ (by simp)
    · simpa only [pass1Step, hek] using hinv.keysNodup
    · intro e w hw
      simp only [pass1Step, hek] at hw
      obtain ⟨aw, hawP, hawe, hmax⟩ := hinv.winner e w hw
      refine ⟨aw, List.mem_append_left _ hawP, hawe, ?_⟩
      intro q hq hqe
      rcases List.mem_append.mp hq with hq | hq
      · exact hmax q hq hqe
      · simp at hq
        subst hq
        simp at hqe
        rw [hek] at hqe
        exact absurd hqe (by simp)
    · intro e q hq hqe
      simp only [pass1Step, hek]
      rcases List.mem_append.mp hq with hq | hq
      · exact hinv.total e q hq hqe
      · simp at hq
        subst hq
        simp at hqe
        rw [hek] at hqe
        exact absurd hqe (by simp)
  | some e =>
    have hsound : ∀ q ∈ P ++ [(i, acc)], accounts.get? q.1 = some q.2 := by
      intro q hq
      rcases List.mem_append.mp hq with hq | hq
      · exact hinv.sound q hq
      · simp at hq
        subst hq
        exact hp
    have hkeep : ∀ (st' : Pass1State), st'.indicesToKeep = st.indicesToKeep →
        ∀ j, j ∈ st'.indicesToKeep ↔ ∃ a, (j, a) ∈ P ++ [(i, acc)] ∧ emailKey a = none := by
      intro st' hst j
      rw [hst]
      constructor
      · intro hj
        obtain ⟨a, ha, hae⟩ := (hinv.keepIff j).mp hj
        exact ⟨a, List.mem_append_left _ ha, hae⟩
      · rintro ⟨a, ha, hae⟩
        rcases List.mem_append.mp ha with ha | ha
        · exact (hinv.keepIff j).mpr ⟨a, ha, hae⟩
        · simp at ha
          obtain ⟨rfl, rfl⟩ := ha
          rw [hek] at hae
          exact absurd hae (by simp)
    match hget : mapGet st.emailToNewestIndex e with
    | none =>
      refine ⟨hsound, ?_, ?_, ?_, ?_⟩
      · apply hkeep
        simp [pass1Step, hek, hget]
      · simp only [pass1Step, hek, hget]
        have hkmem : e ∉ st.emailToNewestIndex.map Prod.fst :=
          (mapGet_none_iff _ _).mp hget
        rw [mapSet_fst_of_not_mem _ _ hkmem]
        simp [List.nodup_append, hinv.keysNodup, hkmem]
      · intro e' w hw
        simp only [pass1Step, hek, hget] at hw
        by_cases he : e' = e
        · subst he
          rw [mapGet_mapSet_self] at hw
          obtain rfl : w = i := by simpa using hw.symm
          refine ⟨acc, List.mem_append_right _ (by simp), hek, ?_⟩
          intro q hq hqe
          rcases List.mem_append.mp hq with hq | hq
          · obtain ⟨w', hw'⟩ := hinv.total e' q hq hqe
            rw [hget] at hw'
            exact absurd hw' (by simp)
          · simp at hq
            subst hq
            exact lexLE_refl acc
        · rw [mapGet_mapSet_ne _ _ he] at hw
          obtain ⟨aw, hawP, hawe, hmax⟩ := hinv.winner e' w hw
          refine ⟨aw, List.mem_append_left _ hawP, hawe, ?_⟩
          intro q hq hqe
          rcases List.mem_append.mp hq with hq | hq
          · exact hmax q hq hqe
          · simp at hq
            subst hq
            rw [hek] at hqe
            obtain rfl : e = e' := by simpa using hqe
            exact absurd rfl he
      · intro e' q hq hqe
        simp only [pass1Step, hek, hget]
        by_cases he : e' = e
        · subst he
          exact ⟨i, mapGet_mapSet_self _ _ _⟩
        · rw [mapGet_mapSet_ne _ _ he]
          rcases List.mem_append.mp hq with hq | hq
          · exact hinv.total e' q hq hqe
          · simp at hq
            subst hq
            rw [hek] at hqe
            obtain rfl : e = e' := by simpa using hqe
            exact absurd rfl he
    | some w0 =>
      obtain ⟨aw, hawP, hawe, hmax⟩ := hinv.winner e w0 hget
      have hgw : accounts.get? w0 = some aw := hinv.sound _ hawP
      have hgw' : accounts[w0]? = some aw := by
        rw [← List.get?_eq_getElem?]
        exact hgw
      match hnew : isNewer acc aw with
      | true =>
        refine ⟨hsound, ?_, ?_, ?_, ?_⟩
        · apply hkeep
          simp [pass1Step, hek, hget, hgw, hgw', hnew]
        · simp [pass1Step, hek, hget, hgw', hnew]
          have hkmem : e ∈ st.emailToNewestIndex.map Prod.fst :=
            List.mem_map.mpr ⟨(e, w0), mapGet_mem hget, rfl⟩
          rw [mapSet_fst_of_mem _ _ hkmem]
          exact hinv.keysNodup
        · intro e' w hw
          simp [pass1Step, hek, hget, hgw', hnew] at hw
          by_cases he : e' = e
          · subst he
            rw [mapGet_mapSet_self] at hw
            obtain rfl : w = i := by simpa using hw.symm
            refine ⟨acc, List.mem_append_right _ (by simp), hek, ?_⟩
            intro q hq hqe
            rcases List.mem_append.mp hq with hq | hq
            · exact lexLE_trans (hmax q hq hqe) (lexLE_of_isNewer_true hnew)
            · simp at hq
              subst hq
              exact lexLE_refl acc
          · rw [mapGet_mapSet_ne _ _ he] at hw
            obtain ⟨aw', hawP', hawe', hmax'⟩ := hinv.winner e' w hw
            refine ⟨aw', List.mem_append_left _ hawP', hawe', ?_⟩
            intro q hq hqe
            rcases List.mem_append.mp hq with hq | hq
            · exact hmax' q hq hqe
            · simp at hq
              subst hq
              rw [hek] at hqe
              obtain rfl : e = e' := by simpa using hqe
              exact absurd rfl he
        · intro e' q hq hqe
          simp [pass1Step, hek, hget, hgw', hnew]
          by_cases he : e' = e
          · subst he
            exact ⟨i, mapGet_mapSet_self _ _ _⟩
          · rw [mapGet_mapSet_ne _ _ he]
            rcases List.mem_append.mp hq with hq | hq
            · exact hinv.total e' q hq hqe
            · simp at hq
              subst hq
              rw [hek] at hqe
              obtain rfl : e = e' := by simpa using hqe
              exact absurd rfl he
      | false =>
        have hstep : pass1Step accounts st (i, acc) = st := by
          simp [pass1Step, hek, hget, hgw, hgw', hnew]
        rw [hstep]
        refine ⟨hsound, ?_, hinv.keysNodup, ?_, ?_⟩
        · exact hkeep st rfl
        · intro e' w hw
          obtain ⟨aw', hawP', hawe', hmax'⟩ := hinv.winner e' w hw
          refine ⟨aw', List.mem_append_left _ hawP', hawe', ?_⟩
          intro q hq hqe
          rcases List.mem_append.mp hq with hq | hq
          · exact hmax' q hq hqe
          · simp at hq
            subst hq
            rw [hek] at hqe
            obtain rfl : e = e' := by simpa using hqe
            have hww : w = w0 := by rw [hget] at hw; simpa using hw.symm
            subst hww
            have haw : aw' = aw := by
              have h1 := hinv.sound _ hawP'
              rw [h1] at hgw
              simpa using hgw
            subst haw
            exact lexLE_of_isNewer_false hnew
        · intro e' q hq hqe
          rcases List.mem_append.mp hq with hq | hq
          · exact hinv.total e' q hq hqe
          · simp at hq
            subst hq
            rw [hek] at hqe
            obtain rfl : e = e' := by simpa using hqe
            exact ⟨w0, hget⟩

theorem pass1_fold_inv {accounts : List AccountMetadata} :
    ∀ (R P : List (Nat × AccountMetadata)) (st : Pass1State),
      (∀ p ∈ R, accounts.get? p.1 = some p.2) →
      Pass1Inv accounts P st →
      Pass1Inv accounts (P ++ R) (R.foldl (pass1Step accounts) st) := by
  intro R
  induction R with
  | nil =>
    intro P st _ hinv
    simpa using hinv
  | cons p R' ih =>
    intro P st hR hinv
    have h1 : Pass1Inv accounts (P ++ [p]) (pass1Step accounts st p) :=
      pass1Step_inv (hR p (by simp)) hinv
    have h2 := ih (P ++ [p]) (pass1Step accounts st p)
      (fun q hq => hR q (List.mem_cons_of_mem _ hq)) h1
    simpa using h2

/-- The invariant holds of the completed first pass. -/
theorem dedupState_inv (accounts : List AccountMetadata) :
    Pass1Inv accounts accounts.enum (dedupState accounts) := by
  have hbase : Pass1Inv accounts [] {} := by
    refine ⟨?_, ?_, ?_, ?_, ?_⟩ <;> simp [mapGet, Pass1State]
  have h := pass1_fold_inv accounts.enum [] {}
    (fun p hp => mem_enum_iff_get?.mp (by simpa using hp)) hbase
  simpa [dedupState] using h

theorem mem_dedup_of_keep {accounts : List AccountMetadata} {i : Nat} {a : AccountMetadata}
    (hk : i ∈ dedupKeep accounts) (ha : accounts.get? i = some a) :
    a ∈ deduplicateAccountsByEmail accounts := by
  unfold deduplicateAccountsByEmail
  refine List.mem_map.mpr ⟨(i, a), ?_, rfl⟩
  rw [List.mem_filter]
  exact ⟨mem_enum_iff_get?.mpr ha, by simpa using hk⟩

theorem keep_char {accounts : List AccountMetadata} {i : Nat} :
    i ∈ dedupKeep accounts ↔
      (∃ a, (i, a) ∈ accounts.enum ∧ emailKey a = none) ∨
      (∃ e, mapGet (dedupState accounts).emailToNewestIndex e = some i) := by
  have hinv := dedupState_inv accounts
  unfold dedupKeep
  rw [List.mem_append]
  constructor
  · rintro (h | h)
    · exact Or.inl ((hinv.keepIff i).mp h)
    · obtain ⟨p, hp, hpe⟩ := List.mem_map.mp h
      refine Or.inr ⟨p.1, ?_⟩
      have : (p.1, i) ∈ (dedupState accounts).emailToNewestIndex := by
        have : p = (p.1, p.2) := rfl
        rw [← hpe]
        simpa using hp
      exact mem_mapGet_of_nodup hinv.keysNodup this
  · rintro (h | ⟨e, he⟩)
    · exact Or.inl ((hinv.keepIff i).mpr h)
    · exact Or.inr (List.mem_map.mpr ⟨(e, i), mapGet_mem he, rfl⟩)

theorem filter_eq_singleton_of_nodup {α : Type} {l : List α} {p : α → Bool} {x : α}
    (hnd : l.Nodup) (hx : x ∈ l) (hpx : p x = true)
    (honly : ∀ y ∈ l, p y = true → y = x) : l.filter p = [x] := by
  induction l with
  | nil => simp at hx
  | cons a t ih =>
    rw [List.nodup_cons] at hnd
    rcases List.mem_cons.mp hx with hax | hxt
    · subst hax
      rw [List.filter_cons_of_pos hpx]
      have ht : t.filter p = [] := by
        rw [List.filter_eq_nil_iff]
        intro y hy
        intro hpy
        have := honly y (List.mem_cons_of_mem _ hy) hpy
        subst this
        exact hnd.1 hy
      rw [ht]
    · have hax : a ≠ x := by
        intro h
        subst h
        exact hnd.1 hxt
      have hpa : p a = false := by
        by_contra hpa
        rw [Bool.not_eq_false] at hpa
        exact hax (honly a (by simp) hpa)
      rw [List.filter_cons_of_neg (by simp [hpa])]
      exact ih hnd.2 hxt fun y hy => honly y (List.mem_cons_of_mem _ hy)

theorem two_le_length_filter {α : Type} {p : α → Bool} :
    ∀ (l : List α) (i j : Nat) (a b : α), i < j → l.get? i = some a →
      l.get? j = some b → p a = true → p b = true → 2 ≤ (l.filter p).length := by
  intro l
  induction l with
  | nil => intro i j a b _ hi; simp at hi
  | cons x t ih =>
    intro i j a b hij hi hj hpa hpb
    match i, j with
    | 0, j' + 1 =>
      have hax : x = a := by simpa using hi
      subst hax
      have hbt : t.get? j' = some b := by simpa using hj
      have hbmem : b ∈ t := List.get?_mem hbt
      rw [List.filter_cons_of_pos hpa]
      have : b ∈ t.filter p := List.mem_filter.mpr ⟨hbmem, hpb⟩
      have := List.length_pos.mpr (List.ne_nil_of_mem this)
      simp only [List.length_cons]
      omega
    | i' + 1, j' + 1 =>
      have hi' : t.get? i' = some a := by simpa using hi
      have hj' : t.get? j' = some b := by simpa using hj
      have h2 := ih i' j' a b (by omega) hi' hj' hpa hpb
      by_cases hx : p x = true
      · rw [List.filter_cons_of_pos hx]
        simp only [List.length_cons]
        omega
      · rw [List.filter_cons_of_neg (by simpa using hx)]
        exact h2

theorem dedup_winner_spec {accounts : List AccountMetadata} {e : String} {w : Nat}
    (hw : mapGet (dedupState accounts).emailToNewestIndex e = some w) :
    ∃ aw, accounts.get? w = some aw ∧ emailKey aw = some e ∧
      aw ∈ deduplicateAccountsByEmail accounts ∧
      (∀ b ∈ accounts, emailKey b = some e → lexLE b aw) ∧
      (deduplicateAccountsByEmail accounts).filter
        (fun x => decide (emailKey x = some e)) = [aw] := by
  have hinv := dedupState_inv accounts
  obtain ⟨aw, hawP, hawe, hmax⟩ := hinv.winner e w hw
  have hgw : accounts.get? w = some aw := hinv.sound _ hawP
  have hkw : w ∈ dedupKeep accounts := keep_char.mpr (Or.inr ⟨e, hw⟩)
  have hdm : aw ∈ deduplicateAccountsByEmail accounts := mem_dedup_of_keep hkw hgw
  have hmax' : ∀ b ∈ accounts, emailKey b = some e → lexLE b aw := by
    intro b hb hbe
    obtain ⟨i, hi⟩ := List.get?_of_mem hb
    exact hmax (i, b) (mem_enum_iff_get?.mpr hi) hbe
  refine ⟨aw, hgw, hawe, hdm, hmax', ?_⟩
  unfold deduplicateAccountsByEmail
  rw [List.filter_map, List.filter_filter]
  have hsing : accounts.enum.filter
      (fun p => ((fun x => decide (emailKey x = some e)) ∘ Prod.snd) p &&
        decide (p.1 ∈ dedupKeep accounts)) = [(w, aw)] := by
    apply filter_eq_singleton_of_nodup (enum_nodup accounts)
      (mem_enum_iff_get?.mpr hgw)
    · simp [hkw, hawe]
    · intro y hy hpy
      obtain ⟨y1, y2⟩ := y
      simp only [Function.comp_apply, Bool.and_eq_true, decide_eq_true_eq] at hpy
      obtain ⟨hye, hyk⟩ := hpy
      have hgy : accounts.get? y1 = some y2 := mem_enum_iff_get?.mp hy
      rcases keep_char.mp hyk with ⟨a', ha', hae'⟩ | ⟨e', he'⟩
      · have h2 : y2 = a' := by
          have h1 := mem_enum_iff_get?.mp ha'
          rw [hgy] at h1
          simpa using h1
        subst h2
        rw [hae'] at hye
        exact absurd hye (by simp)
      · obtain ⟨aw', hawP', hawe', _⟩ := hinv.winner e' y1 he'
        have hgy' : accounts.get? y1 = some aw' := hinv.sound _ hawP'
        have haw' : y2 = aw' := by
          rw [hgy] at hgy'
          simpa using hgy'
        subst haw'
        have hee : e = e' := by
          rw [hye] at hawe'
          simpa using hawe'
        subst hee
        have hyw : w = y1 := by
          rw [hw] at he'
          simpa using he'
        subst hyw
        have hy2 : aw = y2 := by
          rw [hgw] at hgy
          simpa using hgy
        subst hy2
        rfl
  rw [hsing]
  rfl

theorem dedup_total {accounts : List AccountMetadata} {a : AccountMetadata} {e : String}
    (ha : a ∈ accounts) (hae : emailKey a = some e) :
    ∃ w, mapGet (dedupState accounts).emailToNewestIndex e = some w := by
  have hinv := dedupState_inv accounts
  obtain ⟨i, hi⟩ := List.get?_of_mem ha
  exact hinv.total e (i, a) (mem_enum_iff_get?.mpr hi) hae

theorem dedup_sublist (accounts : List AccountMetadata) :
    (deduplicateAccountsByEmail accounts).Sublist accounts := by
  unfold deduplicateAccountsByEmail
  have h1 : (accounts.enum.filter (fun p => decide (p.1 ∈ dedupKeep accounts))).Sublist
      accounts.enum := List.filter_sublist _
  have h2 := h1.map Prod.snd
  rwa [List.enum_map_snd] at h2

theorem dedup_filter_le_one (accounts : List AccountMetadata) (e : String) :
    ((deduplicateAccountsByEmail accounts).filter
      (fun x => decide (emailKey x = some e))).length ≤ 1 := by
  by_cases hex : ∃ x ∈ deduplicateAccountsByEmail accounts, emailKey x = some e
  · obtain ⟨x, hx, hxe⟩ := hex
    have hxa : x ∈ accounts := (dedup_sublist accounts).subset hx
    obtain ⟨w, hw⟩ := dedup_total hxa hxe
    obtain ⟨aw, _, _, _, _, hfil⟩ := dedup_winner_spec hw
    rw [hfil]
    simp
  · push_neg at hex
    have hnil : (deduplicateAccountsByEmail accounts).filter
        (fun x => decide (emailKey x = some e)) = [] := by
      rw [List.filter_eq_nil_iff]
      intro y hy
      simp [hex y hy]
    rw [hnil]
    simp

theorem dedup_eq_self_of_unique {l : List AccountMetadata}
    (h : ∀ e, (l.filter (fun x => decide (emailKey x = some e))).length ≤ 1) :
    deduplicateAccountsByEmail l = l := by
  have hall : ∀ p ∈ l.enum, (fun p : Nat × AccountMetadata =>
      decide (p.1 ∈ dedupKeep l)) p = true := by
    intro p hp
    obtain ⟨i, a⟩ := p
    have hg : l.get? i = some a := mem_enum_iff_get?.mp hp
    simp only [decide_eq_true_eq]
    match hek : emailKey a with
    | none => exact keep_char.mpr (Or.inl ⟨a, hp, hek⟩)
    | some e =>
      obtain ⟨w, hw⟩ := dedup_total (List.get?_mem hg) hek
      obtain ⟨aw, hgw, hawe, _, _, _⟩ := dedup_winner_spec hw
      by_cases hiw : i = w
      · subst hiw
        exact keep_char.mpr (Or.inr ⟨e, hw⟩)
      · exfalso
        have h2 : 2 ≤ (l.filter (fun x => decide (emailKey x = some e))).length := by
          rcases Nat.lt_or_ge i w with hlt | hge
          · exact two_le_length_filter l i w a aw hlt hg hgw
              (by simp [hek]) (by simp [hawe])
          · have hlt : w < i := lt_of_le_of_ne hge (fun hh => hiw hh.symm)
            exact two_le_length_filter l w i aw a hlt hgw hg
              (by simp [hawe]) (by simp [hek])
        have := h e
        omega
  unfold deduplicateAccountsByEmail
  rw [List.filter_eq_self.mpr hall, List.enum_map_snd]

/-- C1: de-duplication removes an account only when another account shares its
email identity (the code's identity: a present, non-empty email), and among
the accounts sharing one email exactly one survives, one with the greatest
`lastUsed`, ties broken by the greatest `addedAt` (it is lexicographically at
least as new as every account sharing its email). -/
theorem dedup_removes_only_shared_email_keeps_newest (accounts : List AccountMetadata) :
    (∀ a ∈ accounts, a ∉ deduplicateAccountsByEmail accounts →
      ∃ b ∈ accounts, b ≠ a ∧ emailKey b = emailKey a ∧ emailKey a ≠ none) ∧
    (∀ e a, a ∈ accounts → emailKey a = some e →
      ∃ w, (deduplicateAccountsByEmail accounts).filter
          (fun x => decide (emailKey x = some e)) = [w] ∧
        emailKey w = some e ∧ ∀ b ∈ accounts, emailKey b = some e → lexLE b w) := by
  constructor
  · intro a ha hnot
    obtain ⟨i, hi⟩ := List.get?_of_mem ha
    match hek : emailKey a with
    | none =>
      exact absurd (mem_dedup_of_keep
        (keep_char.mpr (Or.inl ⟨a, mem_enum_iff_get?.mpr hi, hek⟩)) hi) hnot
    | some e =>
      obtain ⟨w, hw⟩ := dedup_total ha hek
      obtain ⟨aw, hgw, hawe, hdm, _, _⟩ := dedup_winner_spec hw
      refine ⟨aw, List.get?_mem hgw, ?_, by simp [hawe, hek], by simp [hek]⟩
      intro hba
      rw [hba] at hdm
      exact hnot hdm
  · intro e a ha hek
    obtain ⟨w, hw⟩ := dedup_total ha hek
    obtain ⟨aw, _, hawe, _, hmax, hfil⟩ := dedup_winner_spec hw
    exact ⟨aw, hfil, hawe, hmax⟩

/-- Concrete accounts for the C1 witness. -/
def wAcc1 : AccountMetadata :=
  { email := some "x", refreshToken := "r1", addedAt := 1, lastUsed := 1 }

def wAcc2 : AccountMetadata :=
  { email := some "x", refreshToken := "r2", addedAt := 2, lastUsed := 5 }

def wAcc3 : AccountMetadata :=
  { email := none, refreshToken := "r3" }

/-- Witness for C1 at a concrete pool of three accounts, two sharing an
email. -/
theorem dedup_removes_only_shared_email_keeps_newest_witness :
    ∃ w, (deduplicateAccountsByEmail [wAcc1, wAcc2, wAcc3]).filter
        (fun x => decide (emailKey x = some "x")) = [w] ∧
      emailKey w = some "x" ∧
      ∀ b ∈ [wAcc1, wAcc2, wAcc3], emailKey b = some "x" → lexLE b w :=
  (dedup_removes_only_shared_email_keeps_newest [wAcc1, wAcc2, wAcc3]).2 "x" wAcc1
    (by simp) (by decide)

/-- C9: `deduplicateAccountsByEmail` is idempotent, and the retained accounts
appear in the input's relative order (the output is a sublist of the
input). -/
theorem dedup_idempotent_and_order_preserving (l : List AccountMetadata) :
    deduplicateAccountsByEmail (deduplicateAccountsByEmail l) =
      deduplicateAccountsByEmail l ∧
    (deduplicateAccountsByEmail l).Sublist l :=
  ⟨dedup_eq_self_of_unique (fun e => dedup_filter_le_one l e), dedup_sublist l⟩

/-! ## Theorems: migration and loadAccounts -/

theorem migrateAccountV1_rlrt (now : Nat) (acc : AccountMetadataV1) :
    (migrateAccountV1 now acc).rateLimitResetTimes =
      if acc.isRateLimited = some true then
        match acc.rateLimitResetTime with
        | some t =>
          if t ≠ 0 ∧ t > (now : Int) then some { claude := some t, gemini := some t }
          else none
        | none => none
      else none := rfl

theorem migrateAccountV1_rlrt_some (now : Nat) (acc : AccountMetadataV1) (t : Int)
    (ht : acc.rateLimitResetTime = some t) :
    (migrateAccountV1 now acc).rateLimitResetTimes =
      if acc.isRateLimited = some true then
        (if t ≠ 0 ∧ t > (now : Int) then some { claude := some t, gemini := some t }
         else none)
      else none := by
  rw [migrateAccountV1_rlrt, ht]

theorem migrateAccountV1_rlrt_none (now : Nat) (acc : AccountMetadataV1)
    (ht : acc.rateLimitResetTime = none) :
    (migrateAccountV1 now acc).rateLimitResetTimes = none := by
  rw [migrateAccountV1_rlrt, ht]
  simp

/-- C3: migration to version 2 preserves the account list pointwise and the
active index; a migrated account's `rateLimitResetTimes` is present exactly
when the v1 record had `isRateLimited` set and a `rateLimitResetTime`
strictly in the future, in which case both family times equal that single v1
time; every other field carries over unchanged. -/
theorem migrateV1ToV2_spec (now : Nat) (v1 : AccountStorageV1) :
    (migrateV1ToV2 now v1).version = 2 ∧
    (migrateV1ToV2 now v1).activeIndex = v1.activeIndex ∧
    (migrateV1ToV2 now v1).accounts = v1.accounts.map (migrateAccountV1 now) ∧
    ∀ acc : AccountMetadataV1,
      ((migrateAccountV1 now acc).rateLimitResetTimes ≠ none ↔
        acc.isRateLimited = some true ∧
          ∃ t, acc.rateLimitResetTime = some t ∧ (now : Int) < t) ∧
      (∀ t, acc.isRateLimited = some true → acc.rateLimitResetTime = some t →
        (now : Int) < t →
        (migrateAccountV1 now acc).rateLimitResetTimes =
          some { claude := some t, gemini := some t }) ∧
      (migrateAccountV1 now acc).email = acc.email ∧
      (migrateAccountV1 now acc).refreshToken = acc.refreshToken ∧
      (migrateAccountV1 now acc).projectId = acc.projectId ∧
      (migrateAccountV1 now acc).managedProjectId = acc.managedProjectId ∧
      (migrateAccountV1 now acc).addedAt = acc.addedAt ∧
      (migrateAccountV1 now acc).lastUsed = acc.lastUsed ∧
      (migrateAccountV1 now acc).lastSwitchReason = acc.lastSwitchReason := by
  refine ⟨rfl, rfl, rfl, ?_⟩
  intro acc
  refine ⟨?_, ?_, rfl, rfl, rfl, rfl, rfl, rfl, rfl⟩
  · constructor
    · intro h
      match ht : acc.rateLimitResetTime with
      | none =>
        rw [migrateAccountV1_rlrt_none now acc ht] at h
        exact absurd rfl h
      | some t =>
        rw [migrateAccountV1_rlrt_some now acc t ht] at h
        by_cases hrl : acc.isRateLimited = some true
        · rw [if_pos hrl] at h
          by_cases hc : t ≠ 0 ∧ t > (now : Int)
          · exact ⟨hrl, t, rfl, hc.2⟩
          · rw [if_neg hc] at h
            exact absurd rfl h
        · rw [if_neg hrl] at h
          exact absurd rfl h
    · rintro ⟨hrl, t, ht, htn⟩
      rw [migrateAccountV1_rlrt_some now acc t ht, if_pos hrl,
        if_pos ⟨by omega, htn⟩]
      simp
  · intro t hrl ht htn
    rw [migrateAccountV1_rlrt_some now acc t ht, if_pos hrl,
      if_pos ⟨by omega, htn⟩]

/-- A concrete rate-limited v1 account for the C3 witness. -/
def wV1Acc : AccountMetadataV1 :=
  { email := some "a", refreshToken := "r", addedAt := 1, lastUsed := 2,
    isRateLimited := some true, rateLimitResetTime := some 10 }

/-- Witness for C3: migrating a rate-limited account with a future reset time
at `now = 5` fills both family reset times. -/
theorem migrateV1ToV2_spec_witness :
    (migrateAccountV1 5 wV1Acc).rateLimitResetTimes =
      some { claude := some 10, gemini := some 10 } :=
  ((migrateV1ToV2_spec 5 ⟨[], 0⟩).2.2.2 wV1Acc).2.1 10 rfl rfl (by decide)

/-- C10: `loadAccounts` is total over file states — every input class yields
either a version-2 storage or `null` (the embedding routes each JS exception
path to the `catch` handler, never to the caller), and a missing file yields
`null` without an error log. -/
theorem loadAccounts_total (now : Nat) (input : LoadInput) :
    ((loadAccounts now input).storage = none ∨
      ∃ s, (loadAccounts now input).storage = some s ∧ s.version = 2) ∧
    loadAccounts now LoadInput.missing = { storage := none, errorLogged := false } := by
  refine ⟨?_, rfl⟩
  cases input with
  | missing => exact Or.inl rfl
  | parseError => exact Or.inl rfl
  | parsed data =>
    cases data with
    | null => exact Or.inl rfl
    | bool b => exact Or.inl rfl
    | num n => exact Or.inl rfl
    | str s => exact Or.inl rfl
    | arr xs => exact Or.inl rfl
    | obj fields =>
      simp only [loadAccounts]
      repeat' split
      all_goals first
        | exact Or.inl rfl
        | exact Or.inr ⟨_, rfl, rfl⟩

theorem finishLoad_activeIndex (accs : List Json) (aiRaw : Option Json) :
    0 ≤ (finishLoad accs aiRaw).activeIndex ∧
    ((finishLoad accs aiRaw).accounts ≠ [] →
      (finishLoad accs aiRaw).activeIndex <
        ((finishLoad accs aiRaw).accounts.length : Int)) ∧
    ((finishLoad accs aiRaw).accounts = [] → (finishLoad accs aiRaw).activeIndex = 0) := by
  have hacc : (finishLoad accs aiRaw).accounts =
      deduplicateAccountsByEmail (accs.filterMap decodeAccount) := rfl
  have hai : (finishLoad accs aiRaw).activeIndex =
      (if (deduplicateAccountsByEmail (accs.filterMap decodeAccount)).length > 0 then
        max (min (rawActiveIndex aiRaw)
          (((deduplicateAccountsByEmail (accs.filterMap decodeAccount)).length : Int) - 1)) 0
      else 0) := rfl
  rw [hacc, hai]
  set d := deduplicateAccountsByEmail (accs.filterMap decodeAccount)
  set ai0 : Int := rawActiveIndex aiRaw
  by_cases h : d.length > 0
  · rw [if_pos h]
    refine ⟨le_max_right _ _, fun _ => ?_, fun h0 => ?_⟩
    · rw [max_lt_iff]
      refine ⟨?_, by exact_mod_cast h⟩
      rw [min_lt_iff]
      right
      omega
    · rw [h0] at h
      simp at h
  · rw [if_neg h]
    have hl : d = [] := List.length_eq_zero.mp (by omega)
    exact ⟨le_refl 0, fun hne => absurd hl hne, fun _ => rfl⟩

/-- Every accepted load result is a `finishLoad`. -/
theorem loadAccounts_some_eq_finishLoad {now : Nat} {input : LoadInput}
    {s : AccountStorage} (h : (loadAccounts now input).storage = some s) :
    ∃ accs aiRaw, s = finishLoad accs aiRaw := by
  cases input with
  | missing => simp [loadAccounts] at h
  | parseError => simp [loadAccounts] at h
  | parsed data =>
    cases data with
    | null => simp [loadAccounts] at h
    | bool b => simp [loadAccounts, jGetKey] at h
    | num n => simp [loadAccounts, jGetKey] at h
    | str s' => simp [loadAccounts, jGetKey] at h
    | arr xs => simp [loadAccounts, jGetKey] at h
    | obj fields =>
      simp only [loadAccounts] at h
      repeat' split at h
      all_goals simp only at h
      all_goals first
        | exact ⟨_, _, (Option.some.inj h).symm⟩
        | simp at h

/-- C2 amended: for every input `loadAccounts` accepts, the returned active
index is non-negative, strictly below the account count whenever the account
list is nonempty, and equal to 0 when the (possibly empty) list is empty —
the claimed range `[0, len)` is unsatisfiable for `len = 0`. -/
theorem loadAccounts_activeIndex_clamped (now : Nat) (input : LoadInput)
    (s : AccountStorage) (h : (loadAccounts now input).storage = some s) :
    0 ≤ s.activeIndex ∧
    (s.accounts ≠ [] → s.activeIndex < (s.accounts.length : Int)) ∧
    (s.accounts = [] → s.activeIndex = 0) := by
  obtain ⟨accs, aiRaw, rfl⟩ := loadAccounts_some_eq_finishLoad h
  exact finishLoad_activeIndex accs aiRaw

/-- A version-2 file with an empty account array. -/
def c2CexInput : LoadInput :=
  .parsed (.obj [("version", .num 2), ("accounts", .arr []), ("activeIndex", .num 3)])

/-- C2 counterexample: `loadAccounts` accepts an empty account list and
returns active index 0, which does not lie in the empty range `[0, 0)` — the
claim as stated fails on an empty list. -/
theorem loadAccounts_activeIndex_cex :
    (loadAccounts 0 c2CexInput).storage =
      some { version := 2, accounts := [], activeIndex := 0 } ∧
    ¬(0 ≤ (0 : Int) ∧ (0 : Int) < (([] : List AccountMetadata).length : Int)) :=
  ⟨rfl, by simp⟩

/-- A one-account version-2 file for the C2 witness (stored index 7 is
clamped into range). -/
def c2WitnessInput : LoadInput :=
  .parsed (.obj [("version", .num 2),
    ("accounts", .arr [.obj [("email", .str "a@b"), ("refreshToken", .str "r"),
      ("addedAt", .num 1), ("lastUsed", .num 2)]]),
    ("activeIndex", .num 7)])

def c2WitnessStorage : AccountStorage :=
  { version := 2,
    accounts := [{ email := some "a@b", refreshToken := "r", addedAt := 1, lastUsed := 2 }],
    activeIndex := 0 }

/-- Witness for the amended C2 at a concrete accepted file. -/
theorem loadAccounts_activeIndex_clamped_witness :
    0 ≤ c2WitnessStorage.activeIndex ∧
    (c2WitnessStorage.accounts ≠ [] →
      c2WitnessStorage.activeIndex < (c2WitnessStorage.accounts.length : Int)) ∧
    (c2WitnessStorage.accounts = [] → c2WitnessStorage.activeIndex = 0) :=
  loadAccounts_activeIndex_clamped 0 c2WitnessInput c2WitnessStorage rfl

/-- C4 amended: a decodable account record of a stored version-2 file appears
in the load result unless a surviving record with the same (present) email
identity is at least as new under the code's `(lastUsed, addedAt)` order —
on full ties nothing in the file is strictly newer, yet the later duplicate
is still dropped. -/
theorem loadAccounts_removal_only_dedup (now : Nat) (fields : List (String × Json))
    (accs : List Json) (st : AccountStorage) (j : Json) (a : AccountMetadata)
    (hacc : jLookup fields "accounts" = some (.arr accs))
    (hver : jLookup fields "version" = some (.num 2))
    (hload : (loadAccounts now (.parsed (.obj fields))).storage = some st)
    (hj : j ∈ accs) (hdec : decodeAccount j = some a) :
    a ∈ st.accounts ∨
      ∃ b ∈ st.accounts, emailKey b = emailKey a ∧ emailKey a ≠ none ∧ lexLE a b := by
  have hst : st = finishLoad accs (jLookup fields "activeIndex") := by
    simp only [loadAccounts, jGetKey, hacc, hver] at hload
    norm_num at hload
    exact hload.symm
  subst hst
  have hmem : a ∈ accs.filterMap decodeAccount := List.mem_filterMap.mpr ⟨j, hj, hdec⟩
  have haccs : (finishLoad accs (jLookup fields "activeIndex")).accounts =
      deduplicateAccountsByEmail (accs.filterMap decodeAccount) := rfl
  rw [haccs]
  match hek : emailKey a with
  | none =>
    left
    obtain ⟨i, hi⟩ := List.get?_of_mem hmem
    exact mem_dedup_of_keep (keep_char.mpr (Or.inl ⟨a, mem_enum_iff_get?.mpr hi, hek⟩)) hi
  | some e =>
    right
    obtain ⟨w, hw⟩ := dedup_total hmem hek
    obtain ⟨aw, _, hawe, hdm, hmax, _⟩ := dedup_winner_spec hw
    exact ⟨aw, hdm, by simp [hawe, hek], by simp [hek], hmax a hmem hek⟩

def c4Ja1 : Json :=
  .obj [("email", .str "x"), ("refreshToken", .str "a"),
    ("addedAt", .num 5), ("lastUsed", .num 5)]

def c4Ja2 : Json :=
  .obj [("email", .str "x"), ("refreshToken", .str "b"),
    ("addedAt", .num 5), ("lastUsed", .num 5)]

def c4Ca1 : AccountMetadata :=
  { email := some "x", refreshToken := "a", addedAt := 5, lastUsed := 5 }

def c4Ca2 : AccountMetadata :=
  { email := some "x", refreshToken := "b", addedAt := 5, lastUsed := 5 }

def c4CexInput : LoadInput :=
  .parsed (.obj [("version", .num 2), ("accounts", .arr [c4Ja1, c4Ja2]),
    ("activeIndex", .num 0)])

/-- C4 counterexample: of two stored records sharing an email with equal
`lastUsed` and `addedAt`, the second is removed by the load although no
record with that email is strictly newer than it. -/
theorem loadAccounts_removal_cex :
    decodeAccount c4Ja2 = some c4Ca2 ∧
    (loadAccounts 0 c4CexInput).storage =
      some { version := 2, accounts := [c4Ca1], activeIndex := 0 } ∧
    c4Ca2 ∉ [c4Ca1] ∧
    (∀ b ∈ [c4Ca1, c4Ca2], ¬(emailKey b = emailKey c4Ca2 ∧ lexLT c4Ca2 b)) :=
  ⟨rfl, rfl, by decide, by decide⟩

/-- Witness for the amended C4 at the same concrete file: the dropped
duplicate has a surviving record with its email that is at least as new. -/
theorem loadAccounts_removal_only_dedup_witness :
    c4Ca2 ∈ (finishLoad [c4Ja1, c4Ja2] (jLookup
        [("version", Json.num 2), ("accounts", Json.arr [c4Ja1, c4Ja2]),
          ("activeIndex", Json.num 0)] "activeIndex")).accounts ∨
      ∃ b ∈ (finishLoad [c4Ja1, c4Ja2] (jLookup
        [("version", Json.num 2), ("accounts", Json.arr [c4Ja1, c4Ja2]),
          ("activeIndex", Json.num 0)] "activeIndex")).accounts,
        emailKey b = emailKey c4Ca2 ∧ emailKey c4Ca2 ≠ none ∧ lexLE c4Ca2 b := by
  have h := loadAccounts_removal_only_dedup 0
    [("version", Json.num 2), ("accounts", Json.arr [c4Ja1, c4Ja2]),
      ("activeIndex", Json.num 0)]
    [c4Ja1, c4Ja2] _ c4Ja2 c4Ca2 rfl rfl rfl (by simp) rfl
  exact h

/-! ## Theorems: signature cache (spec-modelled) -/

theorem evictOldest_filter_ne (s : String) (l : List CacheEntry) :
    (evictOldest s l).filter (fun x => decide (x.sessionId ≠ s)) =
      l.filter (fun x => decide (x.sessionId ≠ s)) := by
  induction l with
  | nil => rfl
  | cons x t ih =>
    by_cases hx : x.sessionId = s
    · simp only [evictOldest, if_pos hx]
      rw [List.filter_cons_of_neg (by simp [hx])]
    · simp only [evictOldest, if_neg hx]
      rw [List.filter_cons_of_pos (by simp [hx]), List.filter_cons_of_pos (by simp [hx]),
        ih]

theorem evictOldest_filter_eq (s : String) (l : List CacheEntry) :
    (evictOldest s l).filter (fun x => decide (x.sessionId = s)) =
      (l.filter (fun x => decide (x.sessionId = s))).drop 1 := by
  induction l with
  | nil => rfl
  | cons x t ih =>
    by_cases hx : x.sessionId = s
    · simp only [evictOldest, if_pos hx]
      rw [List.filter_cons_of_pos (by simp [hx])]
      simp
    · simp only [evictOldest, if_neg hx]
      rw [List.filter_cons_of_neg (by simp [hx]), List.filter_cons_of_neg (by simp [hx]),
        ih]

/-- C7: `get` never returns an entry inserted more than the TTL (1 hour)
before `now`, and inserting a fresh-keyed entry into a session already at the
100-entry cap evicts exactly the oldest entry of that session, leaving other
sessions' entries untouched and the session at the cap. -/
theorem signature_cache_policies :
    (∀ (now : Nat) (s k : String) (c : List CacheEntry) (e : CacheEntry),
      cacheGet now s k c = some e → ¬(e.insertedAt + cacheTTL < now)) ∧
    (∀ (c : List CacheEntry) (e : CacheEntry),
      (c.filter (fun x => decide (x.sessionId = e.sessionId))).length = cacheCap →
      (∀ x ∈ c, ¬(x.sessionId = e.sessionId ∧ x.subKey = e.subKey)) →
      (cacheSet c e).filter (fun x => decide (x.sessionId ≠ e.sessionId)) =
        c.filter (fun x => decide (x.sessionId ≠ e.sessionId)) ∧
      (cacheSet c e).filter (fun x => decide (x.sessionId = e.sessionId)) =
        (c.filter (fun x => decide (x.sessionId = e.sessionId))).drop 1 ++ [e] ∧
      ((cacheSet c e).filter (fun x => decide (x.sessionId = e.sessionId))).length
        = cacheCap) := by
  constructor
  · intro now s k c e h
    match hf : c.find? (cacheKeyMatch s k) with
    | none => simp [cacheGet, hf] at h
    | some e' =>
      simp only [cacheGet, hf] at h
      by_cases ht : now < e'.insertedAt + cacheTTL
      · rw [if_pos ht] at h
        have he : e' = e := by simpa using h
        subst he
        omega
      · rw [if_neg ht] at h
        simp at h
  · intro c e h100 hfresh
    have hc1 : c.filter
        (fun x => decide (¬(x.sessionId = e.sessionId ∧ x.subKey = e.subKey))) = c := by
      rw [List.filter_eq_self]
      intro x hx
      simp only [decide_eq_true_eq]
      exact hfresh x hx
    have hlen : ((c ++ [e]).filter
        (fun x => decide (x.sessionId = e.sessionId))).length = cacheCap + 1 := by
      rw [List.filter_append]
      simp [h100]
    have hset : cacheSet c e = evictOldest e.sessionId (c ++ [e]) := by
      unfold cacheSet
      rw [hc1, if_pos (by rw [hlen]; exact Nat.lt_succ_self _)]
    have hone : [e].filter (fun x => decide (x.sessionId = e.sessionId)) = [e] := by simp
    refine ⟨?_, ?_, ?_⟩
    · rw [hset, evictOldest_filter_ne, List.filter_append]
      have he0 : [e].filter (fun x => decide (x.sessionId ≠ e.sessionId)) = [] := by simp
      rw [he0, List.append_nil]
    · rw [hset, evictOldest_filter_eq, List.filter_append, hone,
        List.drop_append_of_le_length (by rw [h100]; decide)]
    · rw [hset, evictOldest_filter_eq, List.filter_append, hone,
        List.drop_append_of_le_length (by rw [h100]; decide)]
      rw [List.length_append, List.length_drop, h100]
      simp [cacheCap]

/-- The concrete cache for the C7 witness: 100 entries in session "s". -/
def c7Entry (i : Nat) : CacheEntry :=
  { sessionId := "s", subKey := Nat.repr i, text := "t", signature := "sig",
    insertedAt := i }

def c7Cache : List CacheEntry := (List.range 100).map c7Entry

def c7New : CacheEntry :=
  { sessionId := "s", subKey := "new", text := "t", signature := "sig",
    insertedAt := 100 }

/-- Witness for C7: a fresh lookup is unexpired, and the 101st insertion into
session "s" evicts exactly its oldest entry. -/
theorem signature_cache_policies_witness :
    ¬((c7Entry 0).insertedAt + cacheTTL < 5) ∧
    ((cacheSet c7Cache c7New).filter (fun x => decide (x.sessionId ≠ c7New.sessionId)) =
      c7Cache.filter (fun x => decide (x.sessionId ≠ c7New.sessionId)) ∧
    (cacheSet c7Cache c7New).filter (fun x => decide (x.sessionId = c7New.sessionId)) =
      (c7Cache.filter (fun x => decide (x.sessionId = c7New.sessionId))).drop 1 ++ [c7New] ∧
    ((cacheSet c7Cache c7New).filter
      (fun x => decide (x.sessionId = c7New.sessionId))).length = cacheCap) :=
  ⟨signature_cache_policies.1 5 "s" "0" [c7Entry 0] (c7Entry 0) (by decide),
   signature_cache_policies.2 c7Cache c7New (by decide) (by decide)⟩

/-! ## Theorems: trailing thinking blocks (spec-modelled) -/

theorem removeTrailing_eq (bs : List Block) :
    removeTrailingThinkingBlocks bs =
      (bs.reverse.dropWhile (fun b => b.isThinking && !hasValidSignature b)).reverse := rfl

theorem filter_dropWhile_eq {α : Type} (p q : α → Bool)
    (hpq : ∀ x, p x = true → q x = false) (l : List α) :
    (l.dropWhile p).filter q = l.filter q := by
  induction l with
  | nil => rfl
  | cons x t ih =>
    rw [List.dropWhile_cons]
    by_cases hx : p x = true
    · rw [if_pos hx, ih, List.filter_cons_of_neg (by simp [hpq x hx])]
    · rw [if_neg hx]

/-- C8: in the thinking-lifecycle filter, the trailing thinking block of an
assistant-authored turn is removed unless its signature is valid, validity
being exactly "a signature string of length at least 50"; non-thinking blocks
of the turn are left in place. -/
theorem trailing_thinking_filter_spec (bs : List Block) (b : Block)
    (hlast : bs.getLast? = some b) :
    (b.isThinking = true → hasValidSignature b = false →
      (filterTurnTrailing ⟨.assistant, bs⟩).blocks =
        removeTrailingThinkingBlocks bs.dropLast) ∧
    (hasValidSignature b = true →
      filterTurnTrailing ⟨.assistant, bs⟩ = ⟨.assistant, bs⟩) ∧
    ((removeTrailingThinkingBlocks bs).filter (fun x => !x.isThinking) =
      bs.filter (fun x => !x.isThinking)) ∧
    (∀ c sig, hasValidSignature (.thinking c (some sig)) = true ↔ 50 ≤ sig.length) ∧
    (∀ c, hasValidSignature (.thinking c none) = false) := by
  have hne : bs ≠ [] := by
    intro h
    rw [h] at hlast
    simp at hlast
  have hbs : bs = bs.dropLast ++ [b] := by
    have h1 := List.dropLast_append_getLast hne
    have h2 : bs.getLast? = some (bs.getLast hne) := List.getLast?_eq_getLast bs hne
    rw [h2] at hlast
    have h3 : b = bs.getLast hne := by simpa using hlast.symm
    rw [h3]
    exact h1.symm
  refine ⟨?_, ?_, ?_, ?_, ?_⟩
  · intro hth hsig
    have heq : removeTrailingThinkingBlocks bs =
        removeTrailingThinkingBlocks bs.dropLast := by
      rw [removeTrailing_eq, removeTrailing_eq]
      conv_lhs => rw [hbs]
      rw [List.reverse_append]
      simp only [List.reverse_singleton, List.singleton_append]
      rw [List.dropWhile_cons]
      simp [hth, hsig]
    simp [filterTurnTrailing, heq]
  · intro hval
    have heq : removeTrailingThinkingBlocks bs = bs := by
      rw [removeTrailing_eq]
      conv_lhs => rw [hbs]
      rw [List.reverse_append]
      simp only [List.reverse_singleton, List.singleton_append]
      rw [List.dropWhile_cons]
      simp only [hval, Bool.not_true, Bool.and_false, if_neg (by simp : ¬false = true)]
      rw [List.reverse_cons, List.reverse_reverse]
      exact hbs.symm
    simp [filterTurnTrailing, heq]
  · rw [removeTrailing_eq, List.filter_reverse,
      filter_dropWhile_eq _ _ (fun x hx => ?_), ← List.filter_reverse,
      List.reverse_reverse]
    simp only [Bool.and_eq_true] at hx
    simp [hx.1]
  · intro c sig
    simp [hasValidSignature]
  · intro c
    rfl

def c8Blocks : List Block := [.text "hello", .thinking "partial" none]

/-- Witness for C8: an unsigned trailing thinking block is removed from an
assistant turn. -/
theorem trailing_thinking_filter_spec_witness :
    (filterTurnTrailing ⟨.assistant, c8Blocks⟩).blocks =
      removeTrailingThinkingBlocks c8Blocks.dropLast :=
  (trailing_thinking_filter_spec c8Blocks (.thinking "partial" none) rfl).1 rfl rfl

/-! ## Theorems: schema sanitizer (spec-modelled) -/

theorem jLookup_append (xs ys : List (String × Json)) (k : String) :
    jLookup (xs ++ ys) k =
      (match jLookup xs k with
       | some v => some v
       | none => jLookup ys k) := by
  induction xs with
  | nil => simp [jLookup]
  | cons p rest ih =>
    obtain ⟨k', v⟩ := p
    by_cases h : k' = k <;> simp [jLookup, h, ih]

theorem jLookup_optField_self (k : String) (v : Option Json) :
    jLookup (optField k v) k = v := by
  cases v <;> simp [optField, jLookup]

theorem jLookup_optField_ne {k m : String} (v : Option Json) (h : k ≠ m) :
    jLookup (optField k v) m = none := by
  cases v <;> simp [optField, jLookup, h]

theorem jLookup_propsField_self (p : Option (List (String × Json))) :
    jLookup (propsField p) "properties" = p.map Json.obj := by
  cases p <;> simp [propsField, jLookup]

theorem jLookup_propsField_ne {k : String} (p : Option (List (String × Json)))
    (h : "properties" ≠ k) : jLookup (propsField p) k = none := by
  cases p <;> simp [propsField, jLookup, h]

theorem assembleFields_type (t e : Option Json) (p : Option (List (String × Json)))
    (i r d a : Option Json) :
    jLookup (assembleFields t e p i r d a) "type" = t := by
  simp only [assembleFields, jLookup_append,
    jLookup_optField_self,
    jLookup_optField_ne (k := "enum") (m := "type") e (by decide),
    jLookup_propsField_ne (k := "type") p (by decide),
    jLookup_optField_ne (k := "items") (m := "type") i (by decide),
    jLookup_optField_ne (k := "required") (m := "type") r (by decide),
    jLookup_optField_ne (k := "description") (m := "type") d (by decide),
    jLookup_optField_ne (k := "additionalProperties") (m := "type") a (by decide)]
  cases t <;> simp [jLookup]

theorem assembleFields_enum (t e : Option Json) (p : Option (List (String × Json)))
    (i r d a : Option Json) :
    jLookup (assembleFields t e p i r d a) "enum" = e := by
  simp only [assembleFields, jLookup_append,
    jLookup_optField_ne (k := "type") (m := "enum") t (by decide),
    jLookup_optField_self,
    jLookup_propsField_ne (k := "enum") p (by decide),
    jLookup_optField_ne (k := "items") (m := "enum") i (by decide),
    jLookup_optField_ne (k := "required") (m := "enum") r (by decide),
    jLookup_optField_ne (k := "description") (m := "enum") d (by decide),
    jLookup_optField_ne (k := "additionalProperties") (m := "enum") a (by decide)]
  cases e <;> simp [jLookup]

theorem assembleFields_properties (t e : Option Json) (p : Option (List (String × Json)))
    (i r d a : Option Json) :
    jLookup (assembleFields t e p i r d a) "properties" = p.map Json.obj := by
  simp only [assembleFields, jLookup_append,
    jLookup_optField_ne (k := "type") (m := "properties") t (by decide),
    jLookup_optField_ne (k := "enum") (m := "properties") e (by decide),
    jLookup_propsField_self,
    jLookup_optField_ne (k := "items") (m := "properties") i (by decide),
    jLookup_optField_ne (k := "required") (m := "properties") r (by decide),
    jLookup_optField_ne (k := "description") (m := "properties") d (by decide),
    jLookup_optField_ne (k := "additionalProperties") (m := "properties") a (by decide)]
  cases p <;> simp [jLookup]

theorem assembleFields_items (t e : Option Json) (p : Option (List (String × Json)))
    (i r d a : Option Json) :
    jLookup (assembleFields t e p i r d a) "items" = i := by
  simp only [assembleFields, jLookup_append,
    jLookup_optField_ne (k := "type") (m := "items") t (by decide),
    jLookup_optField_ne (k := "enum") (m := "items") e (by decide),
    jLookup_propsField_ne (k := "items") p (by decide),
    jLookup_optField_self,
    jLookup_optField_ne (k := "required") (m := "items") r (by decide),
    jLookup_optField_ne (k := "description") (m := "items") d (by decide),
    jLookup_optField_ne (k := "additionalProperties") (m := "items") a (by decide)]
  cases i <;> simp [jLookup]

theorem assembleFields_required (t e : Option Json) (p : Option (List (String × Json)))
    (i r d a : Option Json) :
    jLookup (assembleFields t e p i r d a) "required" = r := by
  simp only [assembleFields, jLookup_append,
    jLookup_optField_ne (k := "type") (m := "required") t (by decide),
    jLookup_optField_ne (k := "enum") (m := "required") e (by decide),
    jLookup_propsField_ne (k := "required") p (by decide),
    jLookup_optField_ne (k := "items") (m := "required") i (by decide),
    jLookup_optField_self,
    jLookup_optField_ne (k := "description") (m := "required") d (by decide),
    jLookup_optField_ne (k := "additionalProperties") (m := "required") a (by decide)]
  cases r <;> simp [jLookup]

theorem assembleFields_description (t e : Option Json) (p : Option (List (String × Json)))
    (i r d a : Option Json) :
    jLookup (assembleFields t e p i r d a) "description" = d := by
  simp only [assembleFields, jLookup_append,
    jLookup_optField_ne (k := "type") (m := "description") t (by decide),
    jLookup_optField_ne (k := "enum") (m := "description") e (by decide),
    jLookup_propsField_ne (k := "description") p (by decide),
    jLookup_optField_ne (k := "items") (m := "description") i (by decide),
    jLookup_optField_ne (k := "required") (m := "description") r (by decide),
    jLookup_optField_self,
    jLookup_optField_ne (k := "additionalProperties") (m := "description") a (by decide)]
  cases d <;> simp [jLookup]

theorem assembleFields_addprops (t e : Option Json) (p : Option (List (String × Json)))
    (i r d a : Option Json) :
    jLookup (assembleFields t e p i r d a) "additionalProperties" = a := by
  simp only [assembleFields, jLookup_append,
    jLookup_optField_ne (k := "type") (m := "additionalProperties") t (by decide),
    jLookup_optField_ne (k := "enum") (m := "additionalProperties") e (by decide),
    jLookup_propsField_ne (k := "additionalProperties") p (by decide),
    jLookup_optField_ne (k := "items") (m := "additionalProperties") i (by decide),
    jLookup_optField_ne (k := "required") (m := "additionalProperties") r (by decide),
    jLookup_optField_ne (k := "description") (m := "additionalProperties") d (by decide),
    jLookup_optField_self]

theorem assembleFields_const (t e : Option Json) (p : Option (List (String × Json)))
    (i r d a : Option Json) : jLookup (assembleFields t e p i r d a) "const" = none := by
  simp only [assembleFields, jLookup_append,
    jLookup_optField_ne (k := "type") (m := "const") t (by decide),
    jLookup_optField_ne (k := "enum") (m := "const") e (by decide),
    jLookup_propsField_ne (k := "const") p (by decide),
    jLookup_optField_ne (k := "items") (m := "const") i (by decide),
    jLookup_optField_ne (k := "required") (m := "const") r (by decide),
    jLookup_optField_ne (k := "description") (m := "const") d (by decide),
    jLookup_optField_ne (k := "additionalProperties") (m := "const") a (by decide)]

/-- The enum output of sanitizing an object schema: `const` converted, else
`enum` verbatim. -/
def enumOutOf (fields : List (String × Json)) : Option Json :=
  match jLookup fields "const" with
  | some v => some (Json.arr [v])
  | none => jLookup fields "enum"

/-- The recursively sanitized `properties` map, when present and an object. -/
def propsOutOf (fields : List (String × Json)) : Option (List (String × Json)) :=
  match jLookup fields "properties" with
  | some (Json.obj ps) => some (ps.map (fun q => (q.1, sanitizeSchema q.2)))
  | _ => none

/-- The recursively sanitized `items`, when present. -/
def itemsOutOf (fields : List (String × Json)) : Option Json :=
  match jLookup fields "items" with
  | some it => some (itemsFix (sanitizeSchema it))
  | none => none

theorem attach_map_sanitize (ps : List (String × Json)) :
    ps.attach.map (fun q => (q.1.1, sanitizeSchema q.1.2)) =
      ps.map (fun q => (q.1, sanitizeSchema q.2)) :=
  List.attach_map_val ps (fun q => (q.1, sanitizeSchema q.2))

theorem attach_all_constFree (ps : List (String × Json)) :
    ps.attach.all (fun q => schemaConstFree q.1.2) =
      ps.all (fun q => schemaConstFree q.2) := by
  have h : (ps.attach.all (fun q => schemaConstFree q.1.2) = true) ↔
      (ps.all (fun q => schemaConstFree q.2) = true) := by
    rw [List.all_eq_true, List.all_eq_true]
    constructor
    · intro hall x hx
      exact hall ⟨x, hx⟩ (List.mem_attach ps ⟨x, hx⟩)
    · intro hall q _
      exact hall q.1 q.2
  by_cases hA : ps.attach.all (fun q => schemaConstFree q.1.2) = true <;>
    by_cases hB : ps.all (fun q => schemaConstFree q.2) = true
  · rw [hA, hB]
  · exact absurd (h.mp hA) hB
  · exact absurd (h.mpr hB) hA
  · rw [Bool.not_eq_true] at hA hB
    rw [hA, hB]

theorem sanitizeSchema_obj_eq (fields : List (String × Json)) :
    sanitizeSchema (Json.obj fields) =
      assembleSchema (jLookup fields "type") (enumOutOf fields) (propsOutOf fields)
        (itemsOutOf fields) (jLookup fields "required") (jLookup fields "description")
        (jLookup fields "additionalProperties") := by
  rw [sanitizeSchema]
  simp only [enumOutOf, propsOutOf, itemsOutOf]
  repeat' split
  all_goals simp_all [attach_map_sanitize]

theorem sanitizeSchema_nonobj (j : Json) (h : ∀ fields, j ≠ Json.obj fields) :
    sanitizeSchema j = placeholderSchema := by
  cases j with
  | obj fields => exact absurd rfl (h fields)
  | null => rw [sanitizeSchema] <;> simp
  | bool b => rw [sanitizeSchema] <;> simp
  | num n => rw [sanitizeSchema] <;> simp
  | str s => rw [sanitizeSchema] <;> simp
  | arr xs => rw [sanitizeSchema] <;> simp

/-- The member-wise const-freedom of the `properties` map. -/
def propsConstFreeOf (fields : List (String × Json)) : Bool :=
  match jLookup fields "properties" with
  | some (Json.obj ps) => ps.all (fun q => schemaConstFree q.2)
  | _ => true

/-- The const-freedom of `items`, when present. -/
def itemsConstFreeOf (fields : List (String × Json)) : Bool :=
  match jLookup fields "items" with
  | some it => schemaConstFree it
  | none => true

theorem schemaConstFree_obj_eq (fields : List (String × Json)) :
    schemaConstFree (Json.obj fields) =
      ((match jLookup fields "const" with | some _ => false | none => true) &&
       propsConstFreeOf fields && itemsConstFreeOf fields) := by
  rw [schemaConstFree]
  simp only [propsConstFreeOf, itemsConstFreeOf]
  repeat' split
  all_goals simp_all [attach_all_constFree]

theorem schemaConstFree_nonobj (j : Json) (h : ∀ fields, j ≠ Json.obj fields) :
    schemaConstFree j = true := by
  cases j with
  | obj fields => exact absurd rfl (h fields)
  | null => rw [schemaConstFree] <;> simp
  | bool b => rw [schemaConstFree] <;> simp
  | num n => rw [schemaConstFree] <;> simp
  | str s => rw [schemaConstFree] <;> simp
  | arr xs => rw [schemaConstFree] <;> simp

theorem deepHasKey_obj_eq (k : String) (fields : List (String × Json)) :
    deepHasKey k (Json.obj fields) =
      fields.any (fun q => q.1 == k || deepHasKey k q.2) := by
  rw [deepHasKey]
  have h : (fields.attach.any (fun q => q.1.1 == k || deepHasKey k q.1.2) = true) ↔
      (fields.any (fun q => q.1 == k || deepHasKey k q.2) = true) := by
    rw [List.any_eq_true, List.any_eq_true]
    constructor
    · rintro ⟨q, _, hq⟩
      exact ⟨q.1, q.2, hq⟩
    · rintro ⟨x, hx, hq⟩
      exact ⟨⟨x, hx⟩, List.mem_attach fields ⟨x, hx⟩, hq⟩
  by_cases hA : fields.attach.any (fun q => q.1.1 == k || deepHasKey k q.1.2) = true <;>
    by_cases hB : fields.any (fun q => q.1 == k || deepHasKey k q.2) = true
  · rw [hA, hB]
  · exact absurd (h.mp hA) hB
  · exact absurd (h.mpr hB) hA
  · rw [Bool.not_eq_true] at hA hB
    rw [hA, hB]

theorem itemsFix_ne_empty (s : Json) : itemsFix s ≠ Json.obj [] := by
  cases s with
  | obj fs =>
    cases fs with
    | nil => simp [itemsFix]
    | cons p rest => simp [itemsFix]
  | null => simp [itemsFix]
  | bool b => simp [itemsFix]
  | num n => simp [itemsFix]
  | str s => simp [itemsFix]
  | arr xs => simp [itemsFix]

theorem itemsFix_of_ne {s : Json} (h : s ≠ Json.obj []) : itemsFix s = s := by
  cases s with
  | obj fs =>
    cases fs with
    | nil => exact absurd rfl h
    | cons p rest => rfl
  | null => rfl
  | bool b => rfl
  | num n => rfl
  | str s => rfl
  | arr xs => rfl

theorem injectPlaceholder_cons (typ : Option Json) (p : String × Json)
    (rest : List (String × Json)) :
    injectPlaceholder typ (some (p :: rest)) = false := by
  simp only [injectPlaceholder]

/-- `{type: "string"}` is a fixed point of the sanitizer. -/
theorem sanitize_typeString :
    sanitizeSchema (Json.obj [("type", Json.str "string")]) =
      Json.obj [("type", Json.str "string")] := by
  rw [sanitizeSchema_obj_eq]
  simp [enumOutOf, propsOutOf, itemsOutOf, jLookup, assembleSchema, injectPlaceholder,
    assembleFields, optField, propsField]

/-- The placeholder `reason` schema is a fixed point of the sanitizer. -/
theorem sanitize_reason :
    sanitizeSchema placeholderReasonSchema = placeholderReasonSchema := by
  rw [placeholderReasonSchema, sanitizeSchema_obj_eq]
  simp [enumOutOf, propsOutOf, itemsOutOf, jLookup, assembleSchema, injectPlaceholder,
    assembleFields, optField, propsField]

/-- The full placeholder schema is a fixed point of the sanitizer. -/
theorem sanitize_placeholder :
    sanitizeSchema placeholderSchema = placeholderSchema := by
  rw [placeholderSchema, sanitizeSchema_obj_eq]
  have hr := sanitize_reason
  rw [placeholderReasonSchema] at hr
  simp [enumOutOf, propsOutOf, itemsOutOf, jLookup, assembleSchema, injectPlaceholder,
    assembleFields, optField, propsField, placeholderProps, hr, placeholderReasonSchema]

/-- Re-sanitizing an assembled output whose parts are fixed points (and which
needs no further placeholder injection) is the identity. -/
theorem sanitize_assembled (T E : Option Json) (P : Option (List (String × Json)))
    (I R D A : Option Json)
    (hinj : injectPlaceholder T P = false)
    (hP : ∀ q ∈ P.getD [], sanitizeSchema q.2 = q.2)
    (hI : ∀ it, I = some it → sanitizeSchema it = it ∧ it ≠ Json.obj []) :
    sanitizeSchema (Json.obj (assembleFields T E P I R D A)) =
      Json.obj (assembleFields T E P I R D A) := by
  rw [sanitizeSchema_obj_eq]
  have hE : enumOutOf (assembleFields T E P I R D A) = E := by
    unfold enumOutOf
    rw [assembleFields_const, assembleFields_enum]
  have hPr : propsOutOf (assembleFields T E P I R D A) = P := by
    unfold propsOutOf
    rw [assembleFields_properties]
    cases P with
    | none => rfl
    | some ps =>
      have hmap : ps.map (fun q => (q.1, sanitizeSchema q.2)) = ps := by
        have h1 : ps.map (fun q => (q.1, sanitizeSchema q.2)) = ps.map id :=
          List.map_congr_left (fun q hq => by rw [hP q (by simpa using hq)]; rfl)
        rw [h1, List.map_id]
      simp [hmap]
  have hIt : itemsOutOf (assembleFields T E P I R D A) = I := by
    unfold itemsOutOf
    rw [assembleFields_items]
    cases I with
    | none => rfl
    | some it =>
      obtain ⟨h1, h2⟩ := hI it rfl
      simp only [h1, itemsFix_of_ne h2]
  rw [assembleFields_type, hE, hPr, hIt, assembleFields_required,
    assembleFields_description, assembleFields_addprops]
  unfold assembleSchema
  rw [hinj]
  simp

theorem sanitize_itemsFix {s : Json} (hs : sanitizeSchema s = s) :
    sanitizeSchema (itemsFix s) = itemsFix s := by
  cases s with
  | obj fs =>
    cases fs with
    | nil => simpa [itemsFix] using sanitize_typeString
    | cons p rest => exact hs
  | null => exact hs
  | bool b => exact hs
  | num n => exact hs
  | str s => exact hs
  | arr xs => exact hs

/-- The schema sanitizer is idempotent. -/
theorem sanitizeSchema_idem (j : Json) :
    sanitizeSchema (sanitizeSchema j) = sanitizeSchema j := by
  match j with
  | .null =>
    rw [sanitizeSchema_nonobj .null (by intro f h; cases h)]
    exact sanitize_placeholder
  | .bool b =>
    rw [sanitizeSchema_nonobj (.bool b) (by intro f h; cases h)]
    exact sanitize_placeholder
  | .num n =>
    rw [sanitizeSchema_nonobj (.num n) (by intro f h; cases h)]
    exact sanitize_placeholder
  | .str s =>
    rw [sanitizeSchema_nonobj (.str s) (by intro f h; cases h)]
    exact sanitize_placeholder
  | .arr xs =>
    rw [sanitizeSchema_nonobj (.arr xs) (by intro f h; cases h)]
    exact sanitize_placeholder
  | .obj fields =>
    have hIfix : ∀ it0, itemsOutOf fields = some it0 →
        sanitizeSchema it0 = it0 ∧ it0 ≠ Json.obj [] := by
      intro it0 h0
      unfold itemsOutOf at h0
      cases hit : jLookup fields "items" with
      | none => rw [hit] at h0; simp at h0
      | some it =>
        rw [hit] at h0
        have hit0 : it0 = itemsFix (sanitizeSchema it) := by simpa using h0.symm
        subst hit0
        exact ⟨sanitize_itemsFix (sanitizeSchema_idem it), itemsFix_ne_empty _⟩
    have hPfix : ∀ q ∈ (propsOutOf fields).getD [], sanitizeSchema q.2 = q.2 := by
      intro q hq
      unfold propsOutOf at hq
      cases hp : jLookup fields "properties" with
      | none => rw [hp] at hq; simp at hq
      | some v =>
        rw [hp] at hq
        cases v with
        | obj ps =>
          simp only [Option.getD_some] at hq
          obtain ⟨r, hr, hrq⟩ := List.mem_map.mp hq
          have hrec := sanitizeSchema_idem r.2
          rw [← hrq]
          simpa using hrec
        | null => simp at hq
        | bool b => simp at hq
        | num n => simp at hq
        | str s => simp at hq
        | arr ys => simp at hq
    rw [sanitizeSchema_obj_eq fields]
    simp only [assembleSchema]
    by_cases hinj : injectPlaceholder (jLookup fields "type") (propsOutOf fields) = true
    · simp only [hinj, if_true]
      apply sanitize_assembled
      · rw [placeholderProps]
        exact injectPlaceholder_cons _ _ _
      · intro q hq
        simp only [placeholderProps, Option.getD_some, List.mem_singleton] at hq
        subst hq
        exact sanitize_reason
      · exact hIfix
    · rw [Bool.not_eq_true] at hinj
      simp only [hinj, if_false]
      exact sanitize_assembled _ _ _ _ _ _ _ hinj hPfix hIfix
termination_by sizeOf j
decreasing_by
  · have h1 := sizeOf_lt_of_jLookup hit
    simp
    omega
  · have h1 := sizeOf_lt_of_jLookup hp
    have h2 := sizeOf_lt_of_mem_fields hr
    simp at h1 ⊢
    omega

theorem sanChar_idem (c : Char) : sanChar (sanChar c) = sanChar c := by
  unfold sanChar
  by_cases h : (c.isAlphanum || c == '_' || c == '-') = true
  · simp [h]
  · rw [if_neg h, if_pos (by decide)]

theorem sanitizeToolName_idem (n : String) :
    sanitizeToolName (sanitizeToolName n) = sanitizeToolName n := by
  have h2 : sanChar ∘ sanChar = sanChar := funext sanChar_idem
  unfold sanitizeToolName
  have h1 : (String.mk ((n.toList.map sanChar).take 64)).toList =
      (n.toList.map sanChar).take 64 := rfl
  rw [h1]
  congr 1
  rw [List.map_take, List.take_take, List.map_map, h2]
  norm_num

/-- C5: the sanitizer is idempotent, both on schemas and on tool names. -/
theorem sanitize_idempotent :
    (∀ j, sanitizeSchema (sanitizeSchema j) = sanitizeSchema j) ∧
    (∀ name, sanitizeToolName (sanitizeToolName name) = sanitizeToolName name) :=
  ⟨sanitizeSchema_idem, sanitizeToolName_idem⟩

theorem constFree_reason : schemaConstFree placeholderReasonSchema = true := by
  rw [placeholderReasonSchema, schemaConstFree_obj_eq]
  simp [propsConstFreeOf, itemsConstFreeOf, jLookup]

theorem constFree_typeString :
    schemaConstFree (Json.obj [("type", Json.str "string")]) = true := by
  rw [schemaConstFree_obj_eq]
  simp [propsConstFreeOf, itemsConstFreeOf, jLookup]

theorem constFree_placeholder : schemaConstFree placeholderSchema = true := by
  rw [placeholderSchema, schemaConstFree_obj_eq]
  simp [propsConstFreeOf, itemsConstFreeOf, jLookup, placeholderProps, constFree_reason]

theorem constFree_itemsFix {s : Json} (hs : schemaConstFree s = true) :
    schemaConstFree (itemsFix s) = true := by
  cases s with
  | obj fs =>
    cases fs with
    | nil => simpa [itemsFix] using constFree_typeString
    | cons p rest => exact hs
  | null => exact hs
  | bool b => exact hs
  | num n => exact hs
  | str s => exact hs
  | arr xs => exact hs

/-- An assembled schema is const-free at schema positions when its parts
are. -/
theorem constFree_assembled (T E : Option Json) (P : Option (List (String × Json)))
    (I R D A : Option Json)
    (hP : ∀ q ∈ P.getD [], schemaConstFree q.2 = true)
    (hI : ∀ it, I = some it → schemaConstFree it = true) :
    schemaConstFree (Json.obj (assembleFields T E P I R D A)) = true := by
  rw [schemaConstFree_obj_eq, assembleFields_const]
  have hPr : propsConstFreeOf (assembleFields T E P I R D A) = true := by
    unfold propsConstFreeOf
    rw [assembleFields_properties]
    cases P with
    | none => rfl
    | some ps =>
      simp only [Option.map_some']
      rw [List.all_eq_true]
      intro q hq
      exact hP q (by simpa using hq)
  have hIt : itemsConstFreeOf (assembleFields T E P I R D A) = true := by
    unfold itemsConstFreeOf
    rw [assembleFields_items]
    cases I with
    | none => rfl
    | some it => exact hI it rfl
  rw [hPr, hIt]
  rfl

/-- The sanitizer's output never carries a `const` key at any schema
position. -/
theorem sanitizeSchema_constFree (j : Json) :
    schemaConstFree (sanitizeSchema j) = true := by
  match j with
  | .null =>
    rw [sanitizeSchema_nonobj .null (by intro f h; cases h)]
    exact constFree_placeholder
  | .bool b =>
    rw [sanitizeSchema_nonobj (.bool b) (by intro f h; cases h)]
    exact constFree_placeholder
  | .num n =>
    rw [sanitizeSchema_nonobj (.num n) (by intro f h; cases h)]
    exact constFree_placeholder
  | .str s =>
    rw [sanitizeSchema_nonobj (.str s) (by intro f h; cases h)]
    exact constFree_placeholder
  | .arr xs =>
    rw [sanitizeSchema_nonobj (.arr xs) (by intro f h; cases h)]
    exact constFree_placeholder
  | .obj fields =>
    have hIfree : ∀ it0, itemsOutOf fields = some it0 → schemaConstFree it0 = true := by
      intro it0 h0
      unfold itemsOutOf at h0
      cases hit : jLookup fields "items" with
      | none => rw [hit] at h0; simp at h0
      | some it =>
        rw [hit] at h0
        have hit0 : it0 = itemsFix (sanitizeSchema it) := by simpa using h0.symm
        subst hit0
        exact constFree_itemsFix (sanitizeSchema_constFree it)
    have hPfree : ∀ q ∈ (propsOutOf fields).getD [], schemaConstFree q.2 = true := by
      intro q hq
      unfold propsOutOf at hq
      cases hp : jLookup fields "properties" with
      | none => rw [hp] at hq; simp at hq
      | some v =>
        rw [hp] at hq
        cases v with
        | obj ps =>
          simp only [Option.getD_some] at hq
          obtain ⟨r, hr, hrq⟩ := List.mem_map.mp hq
          have hrec := sanitizeSchema_constFree r.2
          rw [← hrq]
          simpa using hrec
        | null => simp at hq
        | bool b => simp at hq
        | num n => simp at hq
        | str s => simp at hq
        | arr ys => simp at hq
    rw [sanitizeSchema_obj_eq fields]
    simp only [assembleSchema]
    by_cases hinj : injectPlaceholder (jLookup fields "type") (propsOutOf fields) = true
    · simp only [hinj, if_true]
      apply constFree_assembled
      · intro q hq
        simp only [placeholderProps, Option.getD_some, List.mem_singleton] at hq
        subst hq
        exact constFree_reason
      · exact hIfree
    · rw [Bool.not_eq_true] at hinj
      simp only [hinj, if_false]
      exact constFree_assembled _ _ _ _ _ _ _ hPfree hIfree
termination_by sizeOf j
decreasing_by
  · have h1 := sizeOf_lt_of_jLookup hit
    simp
    omega
  · have h1 := sizeOf_lt_of_jLookup hp
    have h2 := sizeOf_lt_of_mem_fields hr
    simp at h1 ⊢
    omega

/-- C6 amended: the sanitized output carries no `const` key at any schema
position (the schema itself and, recursively, its `properties` values and
`items`), and a `const: v` at a schema position yields `enum: [v]` there;
`const` keys inside verbatim-copied values (such as `additionalProperties`)
are not converted and can survive. -/
theorem sanitizeSchema_const_handling :
    (∀ j, schemaConstFree (sanitizeSchema j) = true) ∧
    (∀ (fields : List (String × Json)) (v : Json), jLookup fields "const" = some v →
      jGetKey (sanitizeSchema (Json.obj fields)) "enum" = some (Json.arr [v])) := by
  refine ⟨sanitizeSchema_constFree, ?_⟩
  intro fields v h
  rw [sanitizeSchema_obj_eq]
  simp only [assembleSchema, jGetKey]
  have he : enumOutOf fields = some (Json.arr [v]) := by
    unfold enumOutOf
    rw [h]
  by_cases hinj : injectPlaceholder (jLookup fields "type") (propsOutOf fields) = true
  · simp only [hinj, if_true]
    rw [assembleFields_enum, he]
  · rw [Bool.not_eq_true] at hinj
    simp only [hinj, if_false]
    rw [assembleFields_enum, he]

/-- Witness for the amended C6 at a concrete schema with a top-level
`const`. -/
theorem sanitizeSchema_const_handling_witness :
    jGetKey (sanitizeSchema (Json.obj [("const", Json.str "x")])) "enum" =
      some (Json.arr [Json.str "x"]) :=
  sanitizeSchema_const_handling.2 [("const", Json.str "x")] (Json.str "x") rfl

/-- The C6 counterexample schema: a `const` nested under
`additionalProperties`. -/
def c6Cex : Json :=
  Json.obj [("additionalProperties", Json.obj [("const", Json.str "x")])]

/-- C6 counterexample: sanitizing a schema whose `additionalProperties`
holds a `const` binding copies it verbatim — the output still contains a
`const` key (and no corresponding `enum`), refuting "no const key anywhere
in the resulting tree". -/
theorem sanitizeSchema_const_cex :
    sanitizeSchema c6Cex = c6Cex ∧ deepHasKey "const" (sanitizeSchema c6Cex) = true := by
  have h1 : sanitizeSchema c6Cex = c6Cex := by
    rw [c6Cex, sanitizeSchema_obj_eq]
    simp [enumOutOf, propsOutOf, itemsOutOf, jLookup, assembleSchema, injectPlaceholder,
      assembleFields, optField, propsField]
  refine ⟨h1, ?_⟩
  rw [h1, c6Cex, deepHasKey_obj_eq]
  simp only [List.any_cons, List.any_nil]
  rw [deepHasKey_obj_eq]
  simp

end Antigravity

